import Mathlib

/-!
# Command rendezvous server (`server.js`)

A shallow embedding of the Express server of `src/server.js`: the in-memory log
(`logs`), the registry of waiting commands (`pendingCommands`, a JavaScript
`Map`), the pending `setTimeout` timers and the promises of the suspended
`/api/send` requests.  Node runs every handler, every timer callback and the
promise continuations they trigger to completion before the next one starts, so
each of them is one atomic step of the model.

Time is the reading of `Date.now()`, in milliseconds.  The events of `next` only
move it forward, and the callback of a `setTimeout` runs no earlier than its
delay after the clock reading that preceded the call.  `Date.now()` is the wall
clock, which can also be set back: `Step.setClock` and `ReachableAnyClock` cover
the runs in which that happens.
-/

namespace Server

/-! ## Request bodies -/

/-- A decoded JSON value, as `body-parser` hands it to a handler, plus
`undefined` for a property that is absent.  A number is the finite double
`m * 2 ^ e`; the handlers only ever test a number for being zero. -/
inductive JVal where
  | undefined
  | null
  | bool (b : Bool)
  | num (m : Int) (e : Int)
  | str (s : String)
  | arr (items : List JVal)
  | obj (fields : List (String × JVal))

/-- JavaScript truthiness (`!v` is its negation). -/
def JVal.truthy : JVal → Bool
  | .undefined => false
  | .null => false
  | .bool b => b
  | .num m _ => m != 0
  | .str s => s != ""
  | .arr _ => true
  | .obj _ => true

/-- The `typeof` operator. -/
def JVal.typeof : JVal → String
  | .undefined => "undefined"
  | .null => "object"
  | .bool _ => "boolean"
  | .num _ _ => "number"
  | .str _ => "string"
  | .arr _ => "object"
  | .obj _ => "object"

/-- The decoded request body `req.body`: the properties of a JSON object (a
body that is a JSON array has none of the properties read by the handlers and
behaves as the empty list). -/
abbrev Body := List (String × JVal)

/-- Property read `req.body[key]`, as done by the destructuring
`const { cmd } = req.body`: `undefined` when the property is absent. -/
def Body.get : Body → String → JVal
  | [], _ => .undefined
  | (k, v) :: rest, key => if k = key then v else Body.get rest key

/-! ## Data model -/

/-- The `status` field of a log entry. -/
inductive Status where
  | pending
  | executed
  | timeout
  deriving DecidableEq, Repr

/-- One element of the `logs` array. -/
structure LogEntry where
  id : String
  command : String
  timestamp : Nat
  status : Status
  result : Option String
  deriving DecidableEq, Repr

/-- A value stored in the `pendingCommands` map:
`{ command, resolve, timeout, timestamp }`.  `resolve` is the resolving function
of the promise of one `/api/send` call and `timeout` the timer that call
scheduled; both are named by the index of the call in `State.submissions`. -/
structure PendingCommand where
  command : String
  resolve : Nat
  timeout : Nat
  timestamp : Nat
  deriving DecidableEq, Repr

/-- The body a response carries. -/
inductive Payload where
  | error (error : String)
  | result (id : String) (result : String)
  | command (id : String) (command : String)
  | message (message : String)
  | logs (entries : List LogEntry)
  | empty
  deriving DecidableEq, Repr

/-- An HTTP response: status code and body. -/
structure Response where
  status : Nat
  payload : Payload
  deriving DecidableEq, Repr

/-- A call made on the promise of a `/api/send` request: `resolve(result)` by
`/api/report` or `reject(new Error(message))` by the timer callback. -/
inductive Settle where
  | fulfil (result : String)
  | reject (message : String)
  deriving DecidableEq, Repr

/-- The closure of one accepted `/api/send` call: the `id` it captured and the
calls made so far on its promise, oldest first.  A promise settles once: only
the first call has an effect. -/
structure Submission where
  id : String
  settles : List Settle
  deriving DecidableEq, Repr

/-- A scheduled `setTimeout` that has neither run nor been cleared: the
submission whose callback it runs and the clock value from which it may run. -/
structure Timer where
  handle : Nat
  deadline : Nat
  deriving DecidableEq, Repr

/-- The state of the server process. -/
structure State where
  logs : List LogEntry
  pendingCommands : List (String × PendingCommand)
  timers : List Timer
  submissions : List Submission
  clock : Nat
  deriving DecidableEq, Repr

/-! ## The `Map` operations used on `pendingCommands`

A JavaScript `Map` keeps its keys in insertion order; `set` on a key that is
present replaces the value and keeps the position. -/

/-- Read `Map.prototype.get`. -/
def mapGet : List (String × PendingCommand) → String → Option PendingCommand
  | [], _ => none
  | (k, v) :: rest, key => if k = key then some v else mapGet rest key

/-- Write `Map.prototype.set`. -/
def mapSet : List (String × PendingCommand) → String → PendingCommand →
    List (String × PendingCommand)
  | [], key, val => [(key, val)]
  | (k, v) :: rest, key, val =>
    if k = key then (k, val) :: rest else (k, v) :: mapSet rest key val

/-- Removal `Map.prototype.delete`. -/
def mapDelete : List (String × PendingCommand) → String → List (String × PendingCommand)
  | [], _ => []
  | (k, v) :: rest, key => if k = key then rest else (k, v) :: mapDelete rest key

/-- A `get` whose argument is any JavaScript value: keys are compared with
SameValueZero, so only a string can equal one of the (string) keys. -/
def mapGetVal (m : List (String × PendingCommand)) : JVal → Option PendingCommand
  | .str key => mapGet m key
  | _ => none

/-! ## The log -/

/-- The lookup `logs.find((e) => e.id === id)` followed by the in-place update
of `status` and `result` under `if (logEntry)`: the first entry with that id is
changed, and nothing is when there is none. -/
def updateLog : List LogEntry → String → Status → String → List LogEntry
  | [], _, _, _ => []
  | e :: rest, id, status, result =>
    if e.id = id then { e with status := status, result := some result } :: rest
    else e :: updateLog rest id status result

/-- Identifier `generateId()`: `Date.now().toString()`, for the clock reading `now`. -/
def generateId (now : Nat) : String := toString now

/-- The delay passed to `setTimeout`, in milliseconds. -/
def timeoutMs : Nat := 15000

/-- The message of the timeout error. -/
def timeoutMessage : String := "Timeout: no response from client"

/-! ## Handlers -/

/-- The guard `!cmd || typeof cmd !== "string"` of `/api/send`. -/
def badCmd (cmd : JVal) : Bool := !cmd.truthy || cmd.typeof != "string"

/-- The guard `!id || typeof result !== "string"` of `/api/report`. -/
def badReport (id result : JVal) : Bool := !id.truthy || result.typeof != "string"

/-- The response of a rejected `/api/send`. -/
def sendRejected : Response := ⟨400, .error "cmd（文字列）が必要です"⟩

/-- Handler `POST /api/send`, up to the point where it returns and leaves the
request suspended on `resultPromise`.  `dt` is the time that passes between the
clock read of `generateId()` and the one that follows it.  The response is
`none` when the request is accepted: it is sent later, by the promise. -/
def send (s : State) (body : Body) (dt : Nat) : State × Option Response :=
  let cmd := body.get "cmd"
  if badCmd cmd then (s, some sendRejected)
  else
    match cmd with
    | .str c =>
      let id := generateId s.clock
      let timestamp := s.clock + dt
      let h := s.submissions.length
      ({ logs := s.logs ++ [⟨id, c, timestamp, .pending, none⟩]
         pendingCommands := mapSet s.pendingCommands id ⟨c, h, h, timestamp⟩
         timers := s.timers ++ [⟨h, timestamp + timeoutMs⟩]
         submissions := s.submissions ++ [⟨id, []⟩]
         clock := timestamp }, none)
    | _ => (s, some sendRejected)

/-- Handler `POST /api/poll`: the loop over `pendingCommands.entries()` returns
at the first entry in iteration order; nothing is deleted. -/
def poll (s : State) : State × Response :=
  match s.pendingCommands with
  | (id, data) :: _ => (s, ⟨200, .command id data.command⟩)
  | [] => (s, ⟨204, .empty⟩)

/-- The call `resolve(result)` on the promise of submission `h`, with the
`.then` continuation it schedules: when the promise is still unsettled the log
entry found for the captured id becomes `executed`; a call on a settled promise
is only recorded. -/
def resolvePromise (s : State) (h : Nat) (result : String) : State :=
  match s.submissions[h]? with
  | none => s
  | some sub =>
    { s with
      submissions := s.submissions.set h { sub with settles := sub.settles ++ [.fulfil result] }
      logs := if sub.settles = [] then updateLog s.logs sub.id .executed result else s.logs }

/-- Handler `POST /api/report`, together with the promise continuation that
runs as soon as the handler returns.  Past the guard `id` is truthy and `result`
a string, and `get` finds a record only for a string `id`; the last branch is
the answer when `get` finds nothing. -/
def report (s : State) (body : Body) : State × Response :=
  let id := body.get "id"
  let result := body.get "result"
  if badReport id result then (s, ⟨400, .error "idとresult（文字列）が必要です"⟩)
  else
    match mapGetVal s.pendingCommands id, id, result with
    | some data, .str key, .str r =>
      let s1 := { s with timers := s.timers.filter (fun t => t.handle != data.timeout) }
      let s2 := resolvePromise s1 data.resolve r
      ({ s2 with pendingCommands := mapDelete s2.pendingCommands key },
        ⟨200, .message "Result received"⟩)
    | _, _, _ => (s, ⟨404, .error "Command ID not found or timed out"⟩)

/-- Handler `GET /api/logs`. -/
def getLogs (s : State) : State × Response := (s, ⟨200, .logs s.logs⟩)

/-- The timer callback of submission `h`, with the `.catch` continuation of its
`reject`.  It runs only for a timer that is still scheduled and whose delay has
elapsed; otherwise nothing happens. -/
def fire (s : State) (h : Nat) : State :=
  match s.timers.find? (fun t => t.handle == h), s.submissions[h]? with
  | some t, some sub =>
    if s.clock < t.deadline then s
    else
      { s with
        timers := s.timers.filter (fun t => t.handle != h)
        pendingCommands := mapDelete s.pendingCommands sub.id
        logs := updateLog s.logs sub.id .timeout timeoutMessage
        submissions := s.submissions.set h
          { sub with settles := sub.settles ++ [.reject timeoutMessage] } }
  | _, _ => s

/-- The response the suspended request of a submission has received: decided by
the first call on its promise (`res.json({ id, result })` from `.then`, or
`res.status(504).json({ error: err.message })` from `.catch`). -/
def Submission.response (sub : Submission) : Option Response :=
  match sub.settles with
  | [] => none
  | .fulfil r :: _ => some ⟨200, .result sub.id r⟩
  | .reject m :: _ => some ⟨504, .error m⟩

/-! ## Runs -/

/-- What can happen to the server: a request arrives, a timer runs, time passes. -/
inductive Event where
  | send (body : Body) (dt : Nat)
  | poll
  | report (body : Body)
  | getLogs
  | fire (h : Nat)
  | tick (d : Nat)

/-- The state after an event.  The clock only moves forward here (`tick`, and the
time a submit takes); `nextStep` adds the wall clock being set to any value. -/
def next (s : State) : Event → State
  | .send body dt => (send s body dt).1
  | .poll => (poll s).1
  | .report body => (report s body).1
  | .getLogs => (getLogs s).1
  | .fire h => fire s h
  | .tick d => { s with clock := s.clock + d }

/-- The response the request of an event gets when its handler returns. -/
def reply (s : State) : Event → Option Response
  | .send body dt => (send s body dt).2
  | .poll => some (poll s).2
  | .report body => some (report s body).2
  | .getLogs => some (getLogs s).2
  | .fire _ => none
  | .tick _ => none

/-- The state after a sequence of events. -/
def run (s : State) : List Event → State
  | [] => s
  | e :: es => run (next s e) es

/-- The state at startup: the log read from the log file, nothing waiting. -/
def init (logs : List LogEntry) (clock : Nat) : State :=
  ⟨logs, [], [], [], clock⟩

/-- The states the server can be in while the clock only moves forward. -/
inductive Reachable : State → Prop where
  | init (logs : List LogEntry) (clock : Nat) : Reachable (init logs clock)
  | step {s : State} (e : Event) : Reachable s → Reachable (next s e)

/-- A step of a run in which the wall clock may be adjusted: an event of the
server, or the clock being set to another value, earlier or later. -/
inductive Step where
  | event (e : Event)
  | setClock (now : Nat)

/-- The state after a step. -/
def nextStep (s : State) : Step → State
  | .event e => next s e
  | .setClock now => { s with clock := now }

/-- The state after a sequence of steps. -/
def runSteps (s : State) : List Step → State
  | [] => s
  | st :: sts => runSteps (nextStep s st) sts

/-- The states the server can be in, whatever the wall clock does. -/
inductive ReachableAnyClock : State → Prop where
  | init (logs : List LogEntry) (clock : Nat) : ReachableAnyClock (init logs clock)
  | step {s : State} (st : Step) : ReachableAnyClock s → ReachableAnyClock (nextStep s st)


/-! ## Auxiliary definitions for the proofs -/

/-- The value of a decimal digit character. -/
def digitVal (c : Char) : Nat := c.toNat - 48

/-- Reading a decimal numeral, most significant digit first. -/
def readDigits (acc : Nat) : List Char → Nat
  | [] => acc
  | c :: cs => readDigits (acc * 10 + digitVal c) cs

/-- The keys of the map, in iteration order. -/
def mapKeys (m : List (String × PendingCommand)) : List String := m.map Prod.fst

/-- What holds in every state the server can reach. -/
structure Inv (s : State) : Prop where
  keys_nodup : (mapKeys s.pendingCommands).Nodup
  handles_nodup : (s.timers.map Timer.handle).Nodup
  pending_ok : ∀ k d, (k, d) ∈ s.pendingCommands →
    d.resolve = d.timeout ∧ (∃ t ∈ s.timers, t.handle = d.timeout) ∧
      ∃ sub, s.submissions[d.resolve]? = some sub ∧ sub.id = k
  timer_ok : ∀ t ∈ s.timers, ∃ sub, s.submissions[t.handle]? = some sub ∧ sub.settles = [] ∧
    ∃ c, sub.id = generateId c ∧ c + timeoutMs ≤ t.deadline
  settled_once : ∀ sub ∈ s.submissions, sub.settles.length ≤ 1
  log_ids : ∃ pre, s.logs.map LogEntry.id = pre ++ s.submissions.map Submission.id

/-- A submit whose timer has run has its id out of the registry, unless a later
submit was given the same id. -/
def TimedOutGone (s : State) : Prop :=
  ∀ (i : Nat) (sub : Submission), s.submissions[i]? = some sub →
    (∃ m, Settle.reject m ∈ sub.settles) →
    mapGet s.pendingCommands sub.id = none ∨
    ∃ (j : Nat) (sub2 : Submission), i < j ∧ s.submissions[j]? = some sub2 ∧ sub2.id = sub.id

/-- Every log entry that has left `pending` is out of play: its id is not waiting
in the registry and no scheduled timer belongs to a submit with that id. -/
def SettledOut (s : State) : Prop :=
  ∀ e ∈ s.logs, e.status ≠ Status.pending →
    mapGet s.pendingCommands e.id = none ∧
    ∀ t ∈ s.timers, ∀ sub, s.submissions[t.handle]? = some sub → sub.id ≠ e.id

/-- The fields of a log entry that are written once, when it is appended. -/
def LogEntry.triple (e : LogEntry) : String × String × Nat := (e.id, e.command, e.timestamp)

/-- The commands of the submits of a sequence of events that are accepted (those
that pass the guard of `/api/send`), in the order of the events. -/
def acceptedCommands : List Event → List String
  | [] => []
  | .send body _ :: es =>
    if badCmd (body.get "cmd") then acceptedCommands es
    else
      match body.get "cmd" with
      | .str c => c :: acceptedCommands es
      | _ => acceptedCommands es
  | _ :: es => acceptedCommands es

/-- The clock reading an identifier was generated from. -/
def idClock (id : String) : Nat := readDigits 0 id.data

/-- An entry of the registry comes before another one: its id was generated at an
earlier clock reading and its record belongs to an earlier submit. -/
def Before (p q : String × PendingCommand) : Prop :=
  idClock p.1 < idClock q.1 ∧ p.2.resolve < q.2.resolve

/-- The registry lists its entries from the earliest to the latest, and every key is
the identifier of a clock reading that is not in the future. -/
def Ordered (s : State) : Prop :=
  s.pendingCommands.Pairwise Before ∧
  ∀ p ∈ s.pendingCommands, p.1 = generateId (idClock p.1) ∧ idClock p.1 ≤ s.clock

/-- The ids of the log entries whose status is `pending`, in the order of the log. -/
def pendingIds (logs : List LogEntry) : List String :=
  (logs.filter (fun e => e.status = Status.pending)).map LogEntry.id

/-! ## The log file

The handlers once more, now with the calls of `saveLogs()` and with the
exceptions a statement can throw: a result `Except.error` means that an
exception has left the handler, the timer callback or the promise continuation
at that point. -/

/-- What the process leaves outside its memory: the content last written to the
log file and the lines printed by `console.error`. -/
structure Disk where
  file : List LogEntry
  console : List String
  deriving DecidableEq, Repr

/-- The call `fs.writeFileSync(LOG_FILE, JSON.stringify(logs, null, 2))`.
`failure` is the error the write throws, `none` when it succeeds.  What a failed
write leaves in the file is not modelled: the content is kept. -/
def writeFileSync (d : Disk) (logs : List LogEntry) (failure : Option String) :
    Except String Disk :=
  match failure with
  | none => .ok { d with file := logs }
  | some err => .error err

/-- Function `saveLogs()`: the write under `try`, and `console.error` under
`catch`. -/
def saveLogs (d : Disk) (logs : List LogEntry) (failure : Option String) :
    Except String Disk :=
  match writeFileSync d logs failure with
  | .ok d1 => .ok d1
  | .error e => .ok { d with console := d.console ++ ["ログ保存エラー: " ++ e] }

/-- The block `const logEntry = logs.find((e) => e.id === id); if (logEntry) {...}`
that the `.then` continuation and the timer callback both contain: the entry
found gets the status and the result and `saveLogs()` is called; nothing is done
when no entry is found. -/
def markEntry (logs : List LogEntry) (d : Disk) (id : String) (status : Status)
    (result : String) (failure : Option String) : Except String (List LogEntry × Disk) :=
  match logs.find? (fun e => e.id == id) with
  | some _ =>
    match saveLogs d (updateLog logs id status result) failure with
    | .ok d1 => .ok (updateLog logs id status result, d1)
    | .error e => .error e
  | none => .ok (logs, d)

/-- Handler `POST /api/send` with the log file. -/
def sendSaved (s : State) (d : Disk) (body : Body) (dt : Nat) (failure : Option String) :
    Except String (State × Disk × Option Response) :=
  let cmd := body.get "cmd"
  if badCmd cmd then .ok (s, d, some sendRejected)
  else
    match cmd with
    | .str c =>
      let id := generateId s.clock
      let timestamp := s.clock + dt
      let h := s.submissions.length
      let logs := s.logs ++ [⟨id, c, timestamp, .pending, none⟩]
      match saveLogs d logs failure with
      | .ok d1 =>
        .ok ({ logs := logs
               pendingCommands := mapSet s.pendingCommands id ⟨c, h, h, timestamp⟩
               timers := s.timers ++ [⟨h, timestamp + timeoutMs⟩]
               submissions := s.submissions ++ [⟨id, []⟩]
               clock := timestamp }, d1, none)
      | .error e => .error e
    | _ => .ok (s, d, some sendRejected)

/-- Handler `POST /api/report` and the `.then` continuation, with the log file. -/
def reportSaved (s : State) (d : Disk) (body : Body) (failure : Option String) :
    Except String (State × Disk × Response) :=
  let id := body.get "id"
  let result := body.get "result"
  if badReport id result then .ok (s, d, ⟨400, .error "idとresult（文字列）が必要です"⟩)
  else
    match mapGetVal s.pendingCommands id, id, result with
    | some data, .str key, .str r =>
      let timers := s.timers.filter (fun t => t.handle != data.timeout)
      let pending := mapDelete s.pendingCommands key
      match s.submissions[data.resolve]? with
      | none =>
        .ok ({ s with timers := timers, pendingCommands := pending }, d,
          ⟨200, .message "Result received"⟩)
      | some sub =>
        let submissions := s.submissions.set data.resolve
          { sub with settles := sub.settles ++ [.fulfil r] }
        if sub.settles = [] then
          match markEntry s.logs d sub.id .executed r failure with
          | .ok (logs1, d1) =>
            .ok ({ logs := logs1, pendingCommands := pending, timers := timers,
                   submissions := submissions, clock := s.clock }, d1,
              ⟨200, .message "Result received"⟩)
          | .error e => .error e
        else
          .ok ({ s with timers := timers, pendingCommands := pending,
                        submissions := submissions }, d, ⟨200, .message "Result received"⟩)
    | _, _, _ => .ok (s, d, ⟨404, .error "Command ID not found or timed out"⟩)

/-- The timer callback of submission `h` and the `.catch` continuation, with the
log file. -/
def fireSaved (s : State) (d : Disk) (h : Nat) (failure : Option String) :
    Except String (State × Disk) :=
  match s.timers.find? (fun t => t.handle == h), s.submissions[h]? with
  | some t, some sub =>
    if s.clock < t.deadline then .ok (s, d)
    else
      match markEntry s.logs d sub.id .timeout timeoutMessage failure with
      | .ok (logs1, d1) =>
        .ok ({ s with
               timers := s.timers.filter (fun t => t.handle != h)
               pendingCommands := mapDelete s.pendingCommands sub.id
               logs := logs1
               submissions := s.submissions.set h
                 { sub with settles := sub.settles ++ [.reject timeoutMessage] } }, d1)
      | .error e => .error e
  | _, _ => .ok (s, d)

/-! ## Identifiers: decimal numerals -/

theorem digitVal_digitChar (d : Nat) (h : d < 10) : digitVal (Nat.digitChar d) = d := by
  interval_cases d <;> rfl

theorem toDigitsCore_succ (f n : Nat) (ds : List Char) :
    Nat.toDigitsCore 10 (f + 1) n ds =
      if n / 10 = 0 then Nat.digitChar (n % 10) :: ds
      else Nat.toDigitsCore 10 f (n / 10) (Nat.digitChar (n % 10) :: ds) := rfl

theorem readDigits_toDigitsCore (f : Nat) : ∀ (n : Nat) (ds : List Char), n < f →
    readDigits 0 (Nat.toDigitsCore 10 f n ds) = readDigits n ds := by
  induction f with
  | zero => intro n ds h; omega
  | succ f ih =>
    intro n ds h
    rw [toDigitsCore_succ]
    have hd := digitVal_digitChar (n % 10) (Nat.mod_lt n (by decide))
    by_cases h0 : n / 10 = 0
    · rw [if_pos h0]
      show readDigits (0 * 10 + digitVal (Nat.digitChar (n % 10))) ds = readDigits n ds
      rw [hd]
      congr 1
      omega
    · rw [if_neg h0, ih (n / 10) _ (by omega)]
      show readDigits (n / 10 * 10 + digitVal (Nat.digitChar (n % 10))) ds = readDigits n ds
      rw [hd]
      congr 1
      omega

theorem readDigits_repr (n : Nat) : readDigits 0 (Nat.repr n).data = n :=
  readDigits_toDigitsCore (n + 1) n [] (by omega)

theorem toDigitsCore_ne_nil (f : Nat) : ∀ (n : Nat) (ds : List Char), ds ≠ [] →
    Nat.toDigitsCore 10 f n ds ≠ [] := by
  induction f with
  | zero => intro n ds h; exact h
  | succ f ih =>
    intro n ds _
    rw [toDigitsCore_succ]
    by_cases h0 : n / 10 = 0
    · rw [if_pos h0]; exact List.cons_ne_nil _ _
    · rw [if_neg h0]; exact ih _ _ (List.cons_ne_nil _ _)

/-- Two clock readings with the same identifier are the same reading. -/
theorem generateId_injective {a b : Nat} (h : generateId a = generateId b) : a = b := by
  have h1 : Nat.repr a = Nat.repr b := h
  have h2 := congrArg (fun s : String => readDigits 0 s.data) h1
  simp only [readDigits_repr] at h2
  exact h2

/-- An identifier is never the empty string. -/
theorem generateId_ne_empty (n : Nat) : generateId n ≠ "" := by
  intro h
  have h1 : Nat.repr n = "" := h
  have h2 : (Nat.repr n).data = [] := by rw [h1]
  have h3 : Nat.toDigitsCore 10 (n + 1) n [] = [] := h2
  rw [toDigitsCore_succ] at h3
  by_cases h0 : n / 10 = 0
  · rw [if_pos h0] at h3; exact List.cons_ne_nil _ _ h3
  · rw [if_neg h0] at h3; exact toDigitsCore_ne_nil _ _ _ (List.cons_ne_nil _ _) h3

/-! ## Facts about the `Map` operations -/

theorem mapGet_eq_none {m : List (String × PendingCommand)} {key : String} :
    mapGet m key = none ↔ key ∉ mapKeys m := by
  induction m with
  | nil => simp [mapGet, mapKeys]
  | cons p rest ih =>
    obtain ⟨k, v⟩ := p
    by_cases hk : k = key
    · simp [mapGet, mapKeys, hk]
    · have hk2 : ¬ key = k := fun h => hk h.symm
      simp only [mapKeys] at ih
      simp [mapGet, mapKeys, hk, hk2, ih]

theorem mapGet_mem {m : List (String × PendingCommand)} {key : String} {d : PendingCommand}
    (h : mapGet m key = some d) : (key, d) ∈ m := by
  induction m with
  | nil => simp [mapGet] at h
  | cons p rest ih =>
    obtain ⟨k, v⟩ := p
    by_cases hk : k = key
    · simp [mapGet, hk] at h
      simp [hk, h]
    · simp [mapGet, hk] at h
      exact List.mem_cons_of_mem _ (ih h)

theorem mem_mapKeys {m : List (String × PendingCommand)} {p : String × PendingCommand}
    (h : p ∈ m) : p.1 ∈ mapKeys m := List.mem_map_of_mem Prod.fst h

theorem mapGet_eq_some {m : List (String × PendingCommand)} {key : String} {d : PendingCommand}
    (hn : (mapKeys m).Nodup) : mapGet m key = some d ↔ (key, d) ∈ m := by
  constructor
  · exact mapGet_mem
  · intro h
    induction m with
    | nil => simp at h
    | cons q rest ih =>
      obtain ⟨k, v⟩ := q
      simp only [mapKeys, List.map_cons, List.nodup_cons] at hn
      rcases List.mem_cons.1 h with h | h
      · cases h; simp [mapGet]
      · have hk : k ≠ key := by
          intro e; subst e; exact hn.1 (mem_mapKeys h)
        simp only [mapGet, hk, if_false]
        exact ih hn.2 h

theorem mapKeys_mapSet {m : List (String × PendingCommand)} {key x : String}
    {val : PendingCommand} : x ∈ mapKeys (mapSet m key val) ↔ x = key ∨ x ∈ mapKeys m := by
  induction m with
  | nil => simp [mapSet, mapKeys]
  | cons q rest ih =>
    obtain ⟨k, v⟩ := q
    simp only [mapKeys] at ih
    by_cases hk : k = key
    · subst hk; simp [mapSet, mapKeys]
    · simp only [mapSet, hk, if_false, mapKeys, List.map_cons, List.mem_cons, ih]
      tauto

theorem nodup_mapSet {m : List (String × PendingCommand)} {key : String} {val : PendingCommand}
    (hn : (mapKeys m).Nodup) : (mapKeys (mapSet m key val)).Nodup := by
  induction m with
  | nil => simp [mapSet, mapKeys]
  | cons q rest ih =>
    obtain ⟨k, v⟩ := q
    have hn2 : k ∉ mapKeys rest ∧ (mapKeys rest).Nodup := by
      simpa [mapKeys] using hn
    by_cases hk : k = key
    · simpa [mapSet, hk, mapKeys] using hn
    · have h1 : k ∉ mapKeys (mapSet rest key val) := by
        rw [mapKeys_mapSet]; tauto
      have h2 := ih hn2.2
      simp only [mapSet, hk, if_false]
      exact List.nodup_cons.2 ⟨h1, h2⟩

theorem mem_mapSet {m : List (String × PendingCommand)} {key : String} {val : PendingCommand}
    {p : String × PendingCommand} (hn : (mapKeys m).Nodup) :
    p ∈ mapSet m key val ↔ p = (key, val) ∨ (p ∈ m ∧ p.1 ≠ key) := by
  induction m with
  | nil => simp [mapSet]
  | cons q rest ih =>
    obtain ⟨k, v⟩ := q
    have hn2 : k ∉ mapKeys rest ∧ (mapKeys rest).Nodup := by
      simpa [mapKeys] using hn
    by_cases hk : k = key
    · subst hk
      simp only [mapSet, if_true, List.mem_cons]
      constructor
      · rintro (h | h)
        · exact Or.inl h
        · refine Or.inr ⟨Or.inr h, ?_⟩
          intro e; exact hn2.1 (e ▸ mem_mapKeys h)
      · rintro (h | ⟨h | h, h2⟩)
        · exact Or.inl h
        · exact absurd (by rw [h]) h2
        · exact Or.inr h
    · simp only [mapSet, hk, if_false, List.mem_cons, ih hn2.2]
      constructor
      · rintro (h | h | ⟨h1, h2⟩)
        · exact Or.inr ⟨Or.inl h, by rw [h]; exact hk⟩
        · exact Or.inl h
        · exact Or.inr ⟨Or.inr h1, h2⟩
      · rintro (h | ⟨h | h, h2⟩)
        · exact Or.inr (Or.inl h)
        · exact Or.inl h
        · exact Or.inr (Or.inr ⟨h, h2⟩)

theorem mapGet_mapSet_self (m : List (String × PendingCommand)) (key : String)
    (val : PendingCommand) : mapGet (mapSet m key val) key = some val := by
  induction m with
  | nil => simp [mapSet, mapGet]
  | cons q rest ih =>
    obtain ⟨k, v⟩ := q
    by_cases hk : k = key
    · simp [mapSet, mapGet, hk]
    · simp [mapSet, mapGet, hk, ih]

theorem mapDelete_sublist (m : List (String × PendingCommand)) (key : String) :
    List.Sublist (mapDelete m key) m := by
  induction m with
  | nil => exact List.Sublist.refl _
  | cons q rest ih =>
    obtain ⟨k, v⟩ := q
    by_cases hk : k = key
    · simp only [mapDelete, hk, if_true]; exact List.sublist_cons_self _ _
    · simp only [mapDelete, hk, if_false]; exact ih.cons₂ _

theorem mem_of_mem_mapDelete {m : List (String × PendingCommand)} {key : String}
    {p : String × PendingCommand} (h : p ∈ mapDelete m key) : p ∈ m :=
  (mapDelete_sublist m key).subset h

theorem mapKeys_mapDelete {m : List (String × PendingCommand)} {key x : String}
    (h : x ∈ mapKeys (mapDelete m key)) : x ∈ mapKeys m :=
  ((mapDelete_sublist m key).map Prod.fst).subset h

theorem nodup_mapDelete {m : List (String × PendingCommand)} {key : String}
    (hn : (mapKeys m).Nodup) : (mapKeys (mapDelete m key)).Nodup :=
  hn.sublist ((mapDelete_sublist m key).map Prod.fst)

theorem mem_mapDelete {m : List (String × PendingCommand)} {key : String}
    {p : String × PendingCommand} (hn : (mapKeys m).Nodup) :
    p ∈ mapDelete m key ↔ p ∈ m ∧ p.1 ≠ key := by
  induction m with
  | nil => simp [mapDelete]
  | cons q rest ih =>
    obtain ⟨k, v⟩ := q
    have hn2 : k ∉ mapKeys rest ∧ (mapKeys rest).Nodup := by
      simpa [mapKeys] using hn
    by_cases hk : k = key
    · subst hk
      simp only [mapDelete, if_true, List.mem_cons]
      constructor
      · intro h
        exact ⟨Or.inr h, fun e => hn2.1 (e ▸ mem_mapKeys h)⟩
      · rintro ⟨h | h, h2⟩
        · exact absurd (by rw [h]) h2
        · exact h
    · simp only [mapDelete, hk, if_false, List.mem_cons, ih hn2.2]
      constructor
      · rintro (h | ⟨h1, h2⟩)
        · exact ⟨Or.inl h, by rw [h]; exact hk⟩
        · exact ⟨Or.inr h1, h2⟩
      · rintro ⟨h | h, h2⟩
        · exact Or.inl h
        · exact Or.inr ⟨h, h2⟩

theorem mapGet_mapDelete_self {m : List (String × PendingCommand)} {key : String}
    (hn : (mapKeys m).Nodup) : mapGet (mapDelete m key) key = none := by
  rw [mapGet_eq_none]
  intro h
  obtain ⟨p, hp, hpk⟩ := List.mem_map.1 h
  exact ((mem_mapDelete hn).1 hp).2 hpk

theorem mapGet_mapDelete_of_none {m : List (String × PendingCommand)} {key x : String}
    (h : mapGet m x = none) : mapGet (mapDelete m key) x = none := by
  rw [mapGet_eq_none] at h ⊢
  exact fun hx => h (mapKeys_mapDelete hx)

theorem mapGet_mapSet_ne {m : List (String × PendingCommand)} {key x : String}
    {val : PendingCommand} (h : x ≠ key) : mapGet (mapSet m key val) x = mapGet m x := by
  induction m with
  | nil => simp [mapSet, mapGet, Ne.symm h]
  | cons q rest ih =>
    obtain ⟨k, v⟩ := q
    by_cases hk : k = key
    · subst hk; simp [mapSet, mapGet, Ne.symm h]
    · by_cases hx : k = x
      · subst hx; simp [mapSet, mapGet, hk]
      · simp [mapSet, mapGet, hk, hx, ih]

/-! ## Facts about the log update -/

theorem updateLog_ids (l : List LogEntry) (id : String) (st : Status) (r : String) :
    (updateLog l id st r).map LogEntry.id = l.map LogEntry.id := by
  induction l with
  | nil => rfl
  | cons e rest ih =>
    by_cases he : e.id = id
    · simp [updateLog, he]
    · simp [updateLog, he, ih]

/-- When at most one entry carries the id, the update changes exactly the
entries with that id. -/
theorem updateLog_eq_map (l : List LogEntry) (id : String) (st : Status) (r : String)
    (h : (l.filter (fun e => e.id = id)).length ≤ 1) :
    updateLog l id st r =
      l.map (fun e => if e.id = id then { e with status := st, result := some r } else e) := by
  induction l with
  | nil => rfl
  | cons e rest ih =>
    by_cases he : e.id = id
    · have h0 : ∀ x ∈ rest, ¬ x.id = id := by
        have h1 : (rest.filter (fun e => e.id = id)).length = 0 := by
          simp [List.filter, he] at h; simpa using h
        intro x hx hxid
        have : x ∈ rest.filter (fun e => e.id = id) := by simp [hx, hxid]
        rw [List.length_eq_zero.1 h1] at this
        exact absurd this (List.not_mem_nil _)
      have h2 : rest.map (fun e => if e.id = id then { e with status := st, result := some r }
          else e) = rest := by
        conv_rhs => rw [← List.map_id rest]
        exact List.map_congr_left (fun x hx => by simp [h0 x hx])
      simp only [updateLog, he, if_true, List.map_cons, h2]
    · have h1 : (rest.filter (fun e => e.id = id)).length ≤ 1 := by
        simpa [List.filter, he] using h
      simp only [updateLog, he, if_false, List.map_cons, ih h1]

/-! ## The handlers, case by case -/

theorem badCmd_eq_false {v : JVal} : badCmd v = false ↔ ∃ c, v = .str c ∧ c ≠ "" := by
  cases v <;> simp [badCmd, JVal.truthy, JVal.typeof]

theorem badReport_eq_false {id result : JVal} :
    badReport id result = false ↔ id.truthy = true ∧ ∃ r, result = .str r := by
  cases result <;> simp [badReport, JVal.typeof]

theorem send_reject (s : State) (body : Body) (dt : Nat)
    (h : badCmd (body.get "cmd") = true) : send s body dt = (s, some sendRejected) := by
  simp [send, h]

theorem send_accept (s : State) (body : Body) (dt : Nat) {c : String}
    (h : body.get "cmd" = .str c) (hc : c ≠ "") :
    send s body dt =
      ({ logs := s.logs ++ [⟨generateId s.clock, c, s.clock + dt, .pending, none⟩]
         pendingCommands := mapSet s.pendingCommands (generateId s.clock)
           ⟨c, s.submissions.length, s.submissions.length, s.clock + dt⟩
         timers := s.timers ++ [⟨s.submissions.length, s.clock + dt + timeoutMs⟩]
         submissions := s.submissions ++ [⟨generateId s.clock, []⟩]
         clock := s.clock + dt }, none) := by
  have hb : badCmd (.str c) = false := badCmd_eq_false.2 ⟨c, rfl, hc⟩
  simp [send, hb, h]

theorem report_bad (s : State) (body : Body)
    (h : badReport (body.get "id") (body.get "result") = true) :
    report s body = (s, ⟨400, .error "idとresult（文字列）が必要です"⟩) := by
  simp [report, h]

theorem report_notFound (s : State) (body : Body)
    (h : badReport (body.get "id") (body.get "result") = false)
    (h2 : mapGetVal s.pendingCommands (body.get "id") = none) :
    report s body = (s, ⟨404, .error "Command ID not found or timed out"⟩) := by
  simp [report, h, h2]

theorem report_found (s : State) (body : Body) {key r : String} {data : PendingCommand}
    {sub : Submission} (hid : body.get "id" = .str key) (hr : body.get "result" = .str r)
    (hk : key ≠ "") (hd : mapGet s.pendingCommands key = some data)
    (hs : s.submissions[data.resolve]? = some sub) :
    report s body =
      ({ logs := if sub.settles = [] then updateLog s.logs sub.id .executed r else s.logs
         pendingCommands := mapDelete s.pendingCommands key
         timers := s.timers.filter (fun t => t.handle != data.timeout)
         submissions := s.submissions.set data.resolve
           { sub with settles := sub.settles ++ [.fulfil r] }
         clock := s.clock }, ⟨200, .message "Result received"⟩) := by
  have hb : badReport (.str key) (.str r) = false :=
    badReport_eq_false.2 ⟨by simp [JVal.truthy, hk], r, rfl⟩
  simp [report, hb, hid, hr, mapGetVal, hd, resolvePromise, hs]

theorem poll_state (s : State) : (poll s).1 = s := by
  unfold poll
  split <;> rfl

theorem report_cases (s : State) (body : Body) :
    (∃ resp, report s body = (s, resp) ∧ (resp.status = 400 ∨ resp.status = 404)) ∨
    ∃ key r data, body.get "id" = .str key ∧ body.get "result" = .str r ∧ key ≠ "" ∧
      mapGet s.pendingCommands key = some data := by
  by_cases hb : badReport (body.get "id") (body.get "result") = true
  · exact Or.inl ⟨_, report_bad s body hb, Or.inl rfl⟩
  · have hb2 : badReport (body.get "id") (body.get "result") = false := by simpa using hb
    cases hg : mapGetVal s.pendingCommands (body.get "id") with
    | none => exact Or.inl ⟨_, report_notFound s body hb2 hg, Or.inr rfl⟩
    | some data =>
      obtain ⟨ht, r, hr⟩ := badReport_eq_false.1 hb2
      cases hid : body.get "id" with
      | str key =>
        refine Or.inr ⟨key, r, data, rfl, hr, ?_, ?_⟩
        · intro e; simp [hid, JVal.truthy, e] at ht
        · simpa [hid, mapGetVal] using hg
      | _ => simp [hid, mapGetVal] at hg

theorem find_timer {l : List Timer} {t : Timer} (hn : (l.map Timer.handle).Nodup)
    (ht : t ∈ l) : l.find? (fun x => x.handle == t.handle) = some t := by
  induction l with
  | nil => simp at ht
  | cons a rest ih =>
    simp only [List.map_cons, List.nodup_cons] at hn
    rcases List.mem_cons.1 ht with e | hm
    · subst e; simp [List.find?]
    · have hne : a.handle ≠ t.handle := by
        intro e; exact hn.1 (e ▸ List.mem_map_of_mem Timer.handle hm)
      have hb : (a.handle == t.handle) = false := by simpa using hne
      simp only [List.find?, hb, ih hn.2 hm]

theorem fire_fired (s : State) (h : Nat) {t : Timer} {sub : Submission}
    (ht : s.timers.find? (fun t => t.handle == h) = some t)
    (hs : s.submissions[h]? = some sub) (hd : t.deadline ≤ s.clock) :
    fire s h =
      { logs := updateLog s.logs sub.id .timeout timeoutMessage
        pendingCommands := mapDelete s.pendingCommands sub.id
        timers := s.timers.filter (fun t => t.handle != h)
        submissions := s.submissions.set h
          { sub with settles := sub.settles ++ [.reject timeoutMessage] }
        clock := s.clock } := by
  simp [fire, ht, hs, Nat.not_lt.2 hd]

theorem fire_cases (s : State) (h : Nat) :
    fire s h = s ∨
    ∃ t sub, t ∈ s.timers ∧ t.handle = h ∧ t.deadline ≤ s.clock ∧
      s.submissions[h]? = some sub ∧
      s.timers.find? (fun t => t.handle == h) = some t := by
  cases ht : s.timers.find? (fun t => t.handle == h) with
  | none => left; simp [fire, ht]
  | some t =>
    cases hs : s.submissions[h]? with
    | none => left; simp [fire, ht, hs]
    | some sub =>
      by_cases hd : s.clock < t.deadline
      · left; simp [fire, ht, hs, hd]
      · right
        refine ⟨t, sub, List.mem_of_find?_eq_some ht, ?_, Nat.not_lt.1 hd, rfl, rfl⟩
        simpa using List.find?_some ht

/-! ## The invariant of the reachable states -/

theorem inv_init (logs : List LogEntry) (clock : Nat) : Inv (init logs clock) where
  keys_nodup := by simp [init, mapKeys]
  handles_nodup := by simp [init]
  pending_ok := by simp [init]
  timer_ok := by simp [init]
  settled_once := by simp [init]
  log_ids := ⟨logs.map LogEntry.id, by simp [init]⟩

theorem lt_of_getElem?_eq_some {α : Type} {l : List α} {i : Nat} {a : α}
    (h : l[i]? = some a) : i < l.length := by
  obtain ⟨hlt, _⟩ := List.getElem?_eq_some.1 h
  exact hlt

theorem inv_send {s : State} (hI : Inv s) (body : Body) (dt : Nat) :
    Inv (send s body dt).1 := by
  by_cases hb : badCmd (body.get "cmd") = true
  · rw [send_reject s body dt hb]; exact hI
  · obtain ⟨c, hc, hne⟩ := badCmd_eq_false.1 (by simpa using hb)
    rw [send_accept s body dt hc hne]
    refine ⟨nodup_mapSet hI.keys_nodup, ?_, ?_, ?_, ?_, ?_⟩
    · -- the new handle is fresh
      simp only [List.map_append, List.map_cons, List.map_nil]
      refine List.Nodup.append hI.handles_nodup (List.nodup_singleton _) ?_
      intro x hx hx2
      obtain ⟨t, ht, rfl⟩ := List.mem_map.1 hx
      obtain ⟨sub, hsub, _⟩ := hI.timer_ok t ht
      have := lt_of_getElem?_eq_some hsub
      simp at hx2
      omega
    · intro k d hkd
      rcases (mem_mapSet hI.keys_nodup).1 hkd with e | ⟨hm, _⟩
      · cases e
        refine ⟨rfl, ⟨_, List.mem_append_right _ (List.mem_singleton_self _), rfl⟩, ?_⟩
        exact ⟨_, List.getElem?_concat_length _ _, rfl⟩
      · obtain ⟨h1, ⟨t, ht, h2⟩, sub, h3, h4⟩ := hI.pending_ok k d hm
        refine ⟨h1, ⟨t, List.mem_append_left _ ht, h2⟩, sub, ?_, h4⟩
        rw [List.getElem?_append_left (lt_of_getElem?_eq_some h3)]
        exact h3
    · intro t ht
      rcases List.mem_append.1 ht with hm | hm
      · obtain ⟨sub, h1, h2, h3⟩ := hI.timer_ok t hm
        refine ⟨sub, ?_, h2, h3⟩
        rw [List.getElem?_append_left (lt_of_getElem?_eq_some h1)]
        exact h1
      · rw [List.mem_singleton] at hm
        subst hm
        refine ⟨_, List.getElem?_concat_length _ _, rfl, s.clock, rfl, ?_⟩
        show s.clock + timeoutMs ≤ s.clock + dt + timeoutMs
        omega
    · intro sub hsub
      rcases List.mem_append.1 hsub with hm | hm
      · exact hI.settled_once sub hm
      · rw [List.mem_singleton] at hm
        subst hm
        simp
    · obtain ⟨pre, hpre⟩ := hI.log_ids
      exact ⟨pre, by simp [hpre]⟩

theorem map_set_same {α β : Type} (f : α → β) : ∀ (l : List α) (i : Nat) (a b : α),
    l[i]? = some a → f b = f a → (l.set i b).map f = l.map f := by
  intro l
  induction l with
  | nil => intro i a b _ _; rfl
  | cons x rest ih =>
    intro i a b h hf
    cases i with
    | zero =>
      simp only [List.getElem?_cons_zero, Option.some.injEq] at h
      simp [List.set, hf, h]
    | succ j =>
      simp only [List.getElem?_cons_succ] at h
      simp [List.set, ih j a b h hf]

theorem nodup_filter_handles {l : List Timer} (p : Timer → Bool)
    (hn : (l.map Timer.handle).Nodup) : ((l.filter p).map Timer.handle).Nodup :=
  hn.sublist ((List.filter_sublist l).map Timer.handle)

theorem inv_report {s : State} (hI : Inv s) (body : Body) : Inv (report s body).1 := by
  rcases report_cases s body with ⟨resp, h, _⟩ | ⟨key, r, data, hid, hr, hk, hd⟩
  · rw [h]; exact hI
  · have hmem := mapGet_mem hd
    obtain ⟨hrt, ⟨t, ht, hth⟩, sub, hsub, hsid⟩ := hI.pending_ok key data hmem
    obtain ⟨sub1, hs1, hs2, _⟩ := hI.timer_ok t ht
    have hsame : sub1 = sub := by
      rw [hth, ← hrt, hsub] at hs1
      exact (Option.some.inj hs1).symm
    subst hsame
    rw [report_found s body hid hr hk hd hsub]
    simp only [hs2, if_true, List.nil_append]
    refine ⟨nodup_mapDelete hI.keys_nodup, nodup_filter_handles _ hI.handles_nodup,
      ?_, ?_, ?_, ?_⟩
    · intro k d hkd
      obtain ⟨hm, hne⟩ := (mem_mapDelete hI.keys_nodup).1 hkd
      obtain ⟨h1, ⟨t2, ht2, h2⟩, sub2, h3, h4⟩ := hI.pending_ok k d hm
      have hdiff : data.resolve ≠ d.resolve := by
        intro e
        rw [← e, hsub] at h3
        have : sub1 = sub2 := Option.some.inj h3
        exact hne (by rw [← h4, ← this, hsid])
      refine ⟨h1, ⟨t2, ?_, h2⟩, sub2, ?_, h4⟩
      · refine List.mem_filter.2 ⟨ht2, ?_⟩
        have : t2.handle ≠ data.timeout := by
          rw [h2, ← h1, ← hrt]; exact fun e => hdiff e.symm
        simpa using this
      · rw [List.getElem?_set_ne hdiff]; exact h3
    · intro t2 ht2
      obtain ⟨hm, hne⟩ := List.mem_filter.1 ht2
      have hne2 : data.resolve ≠ t2.handle := by
        rw [hrt]; exact fun e => (by simpa using hne : t2.handle ≠ data.timeout) e.symm
      obtain ⟨sub2, h1, h2⟩ := hI.timer_ok t2 hm
      exact ⟨sub2, by rw [List.getElem?_set_ne hne2]; exact h1, h2⟩
    · intro sub2 hsub2
      rcases List.mem_or_eq_of_mem_set hsub2 with hm | e
      · exact hI.settled_once sub2 hm
      · subst e; simp
    · obtain ⟨pre, hpre⟩ := hI.log_ids
      refine ⟨pre, ?_⟩
      show (updateLog s.logs _ _ _).map LogEntry.id = pre ++ (s.submissions.set _ _).map _
      rw [updateLog_ids, hpre]
      rw [map_set_same Submission.id s.submissions data.resolve sub1
        ⟨sub1.id, [Settle.fulfil r]⟩ hsub rfl]

theorem inv_fire {s : State} (hI : Inv s) (h : Nat) : Inv (fire s h) := by
  rcases fire_cases s h with e | ⟨t, sub, ht, hth, hd, hsub, hfind⟩
  · rw [e]; exact hI
  · obtain ⟨sub1, hs1, hs2, c, hc1, hc2⟩ := hI.timer_ok t ht
    have hsame : sub1 = sub := by
      rw [hth, hsub] at hs1
      exact (Option.some.inj hs1).symm
    subst hsame
    rw [fire_fired s h hfind hsub hd]
    simp only [hs2, List.nil_append]
    refine ⟨nodup_mapDelete hI.keys_nodup, nodup_filter_handles _ hI.handles_nodup,
      ?_, ?_, ?_, ?_⟩
    · intro k d hkd
      obtain ⟨hm, hne⟩ := (mem_mapDelete hI.keys_nodup).1 hkd
      obtain ⟨h1, ⟨t2, ht2, h2⟩, sub2, h3, h4⟩ := hI.pending_ok k d hm
      have hdiff : h ≠ d.resolve := by
        intro e
        rw [← e, hsub] at h3
        have : sub1 = sub2 := Option.some.inj h3
        exact hne (by rw [← h4, ← this])
      refine ⟨h1, ⟨t2, ?_, h2⟩, sub2, ?_, h4⟩
      · refine List.mem_filter.2 ⟨ht2, ?_⟩
        have : t2.handle ≠ h := by
          rw [h2, ← h1]; exact fun e => hdiff e.symm
        simpa using this
      · rw [List.getElem?_set_ne hdiff]; exact h3
    · intro t2 ht2
      obtain ⟨hm, hne⟩ := List.mem_filter.1 ht2
      have hne2 : h ≠ t2.handle := fun e => (by simpa using hne : t2.handle ≠ h) e.symm
      obtain ⟨sub2, h1, h2⟩ := hI.timer_ok t2 hm
      exact ⟨sub2, by rw [List.getElem?_set_ne hne2]; exact h1, h2⟩
    · intro sub2 hsub2
      rcases List.mem_or_eq_of_mem_set hsub2 with hm | e
      · exact hI.settled_once sub2 hm
      · subst e; simp
    · obtain ⟨pre, hpre⟩ := hI.log_ids
      refine ⟨pre, ?_⟩
      show (updateLog s.logs _ _ _).map LogEntry.id = pre ++ (s.submissions.set _ _).map _
      rw [updateLog_ids, hpre]
      rw [map_set_same Submission.id s.submissions h sub1
        ⟨sub1.id, [Settle.reject timeoutMessage]⟩ hsub rfl]

theorem inv_next {s : State} (hI : Inv s) (e : Event) : Inv (next s e) := by
  cases e with
  | send body dt => exact inv_send hI body dt
  | poll => rw [show next s .poll = s from poll_state s]; exact hI
  | report body => exact inv_report hI body
  | getLogs => exact hI
  | fire h => exact inv_fire hI h
  | tick d =>
    exact ⟨hI.keys_nodup, hI.handles_nodup, hI.pending_ok, hI.timer_ok, hI.settled_once,
      hI.log_ids⟩

theorem inv_of_reachable {s : State} (h : Reachable s) : Inv s := by
  induction h with
  | init logs clock => exact inv_init logs clock
  | step e _ ih => exact inv_next ih e

theorem inv_run {s : State} (hI : Inv s) (es : List Event) : Inv (run s es) := by
  induction es generalizing s with
  | nil => exact hI
  | cons e es ih => exact ih (inv_next hI e)

theorem reachable_run {s : State} (h : Reachable s) (es : List Event) :
    Reachable (run s es) := by
  induction es generalizing s with
  | nil => exact h
  | cons e es ih => exact ih (Reachable.step e h)

/-! ## What one event can change -/

theorem resolvePromise_frame (s : State) (h : Nat) (r : String) :
    (resolvePromise s h r).pendingCommands = s.pendingCommands ∧
    (resolvePromise s h r).timers = s.timers ∧
    (resolvePromise s h r).clock = s.clock ∧
    (resolvePromise s h r).submissions.length = s.submissions.length := by
  unfold resolvePromise
  split <;> simp

theorem report_found_state (s : State) (body : Body) {key r : String} {data : PendingCommand}
    (hid : body.get "id" = .str key) (hr : body.get "result" = .str r)
    (hk : key ≠ "") (hd : mapGet s.pendingCommands key = some data) :
    (report s body).2 = ⟨200, .message "Result received"⟩ ∧
    (report s body).1.pendingCommands = mapDelete s.pendingCommands key ∧
    (report s body).1.timers = s.timers.filter (fun t => t.handle != data.timeout) ∧
    (report s body).1.clock = s.clock ∧
    (report s body).1.submissions.length = s.submissions.length := by
  have hb : badReport (.str key) (.str r) = false :=
    badReport_eq_false.2 ⟨by simp [JVal.truthy, hk], r, rfl⟩
  have h := resolvePromise_frame
    { s with timers := s.timers.filter (fun t => t.handle != data.timeout) } data.resolve r
  simp only [report, hb, hid, hr, mapGetVal, hd]
  exact ⟨rfl, by simp [h.1], h.2.1, h.2.2.1, h.2.2.2⟩

theorem next_clock_le (s : State) (e : Event) : s.clock ≤ (next s e).clock := by
  cases e with
  | send body dt =>
    by_cases hb : badCmd (body.get "cmd") = true
    · simp [next, send_reject s body dt hb]
    · obtain ⟨c, hc, hne⟩ := badCmd_eq_false.1 (by simpa using hb)
      simp [next, send_accept s body dt hc hne]
  | poll => simp [next, poll_state]
  | report body =>
    rcases report_cases s body with ⟨resp, h, _⟩ | ⟨key, r, data, hid, hr, hk, hd⟩
    · simp [next, h]
    · simp [next, (report_found_state s body hid hr hk hd).2.2.2.1]
  | getLogs => simp [next, getLogs]
  | fire h =>
    rcases fire_cases s h with e | ⟨t, sub, _, _, hd, hsub, hfind⟩
    · simp [next, e]
    · simp [next, fire_fired s h hfind hsub hd]
  | tick d => simp [next]

theorem run_clock_le (s : State) (es : List Event) : s.clock ≤ (run s es).clock := by
  induction es generalizing s with
  | nil => exact Nat.le_refl _
  | cons e es ih => exact Nat.le_trans (next_clock_le s e) (ih (next s e))

theorem next_submissions_length (s : State) (e : Event) :
    s.submissions.length ≤ (next s e).submissions.length := by
  cases e with
  | send body dt =>
    by_cases hb : badCmd (body.get "cmd") = true
    · simp [next, send_reject s body dt hb]
    · obtain ⟨c, hc, hne⟩ := badCmd_eq_false.1 (by simpa using hb)
      simp [next, send_accept s body dt hc hne]
  | poll => simp [next, poll_state]
  | report body =>
    rcases report_cases s body with ⟨resp, h, _⟩ | ⟨key, r, data, hid, hr, hk, hd⟩
    · simp [next, h]
    · simp [next, (report_found_state s body hid hr hk hd).2.2.2.2]
  | getLogs => simp [next, getLogs]
  | fire h =>
    rcases fire_cases s h with e | ⟨t, sub, _, _, hd, hsub, hfind⟩
    · simp [next, e]
    · simp [next, fire_fired s h hfind hsub hd]
  | tick d => simp [next]

/-- A timer of the next state is an old one or the one a submit has just created,
whose handle is new. -/
theorem next_timers_mem (s : State) (e : Event) (t : Timer) (ht : t ∈ (next s e).timers) :
    t ∈ s.timers ∨ t.handle = s.submissions.length := by
  cases e with
  | send body dt =>
    by_cases hb : badCmd (body.get "cmd") = true
    · left; simpa [next, send_reject s body dt hb] using ht
    · obtain ⟨c, hc, hne⟩ := badCmd_eq_false.1 (by simpa using hb)
      simp only [next, send_accept s body dt hc hne, List.mem_append, List.mem_singleton] at ht
      rcases ht with h | h
      · exact Or.inl h
      · right; rw [h]
  | poll => left; simpa [next, poll_state] using ht
  | report body =>
    rcases report_cases s body with ⟨resp, h, _⟩ | ⟨key, r, data, hid, hr, hk, hd⟩
    · left; simpa [next, h] using ht
    · simp only [next, (report_found_state s body hid hr hk hd).2.2.1] at ht
      exact Or.inl (List.mem_filter.1 ht).1
  | getLogs => left; simpa [next, getLogs] using ht
  | fire h =>
    rcases fire_cases s h with e | ⟨t2, sub, _, _, hd, hsub, hfind⟩
    · left; simpa [next, e] using ht
    · simp only [next, fire_fired s h hfind hsub hd] at ht
      exact Or.inl (List.mem_filter.1 ht).1
  | tick d => left; simpa [next] using ht

/-- A timer that is gone stays gone: handles are never issued twice. -/
theorem timer_stays_gone (h : Nat) : ∀ (es : List Event) (s : State),
    h < s.submissions.length → (∀ t ∈ s.timers, t.handle ≠ h) →
    ∀ t ∈ (run s es).timers, t.handle ≠ h := by
  intro es
  induction es with
  | nil => intro s _ h2; exact h2
  | cons e es ih =>
    intro s h1 h2
    refine ih (next s e) (Nat.lt_of_lt_of_le h1 (next_submissions_length s e)) ?_
    intro t ht
    rcases next_timers_mem s e t ht with hm | hm
    · exact h2 t hm
    · omega

/-- An identifier that is not waiting and was generated at an earlier clock
reading is not waiting after the next event either. -/
theorem absent_next (s : State) (e : Event) {id : String} {c : Nat}
    (h1 : mapGet s.pendingCommands id = none) (h2 : id = generateId c) (h3 : c < s.clock) :
    mapGet (next s e).pendingCommands id = none := by
  cases e with
  | send body dt =>
    by_cases hb : badCmd (body.get "cmd") = true
    · simpa [next, send_reject s body dt hb] using h1
    · obtain ⟨c2, hc, hne⟩ := badCmd_eq_false.1 (by simpa using hb)
      simp only [next, send_accept s body dt hc hne]
      have hne2 : id ≠ generateId s.clock := by
        intro e
        have := generateId_injective (h2.symm.trans e)
        omega
      rw [mapGet_mapSet_ne hne2]; exact h1
  | poll => simpa [next, poll_state] using h1
  | report body =>
    rcases report_cases s body with ⟨resp, h, _⟩ | ⟨key, r, data, hid, hr, hk, hd⟩
    · simpa [next, h] using h1
    · simp only [next, (report_found_state s body hid hr hk hd).2.1]
      exact mapGet_mapDelete_of_none h1
  | getLogs => simpa [next, getLogs] using h1
  | fire h =>
    rcases fire_cases s h with e | ⟨t2, sub, _, _, hd, hsub, hfind⟩
    · simpa [next, e] using h1
    · simp only [next, fire_fired s h hfind hsub hd]
      exact mapGet_mapDelete_of_none h1
  | tick d => simpa [next] using h1

theorem absent_run {id : String} {c : Nat} (h2 : id = generateId c) :
    ∀ (es : List Event) (s : State), mapGet s.pendingCommands id = none → c < s.clock →
    mapGet (run s es).pendingCommands id = none := by
  intro es
  induction es with
  | nil => intro s h1 _; exact h1
  | cons e es ih =>
    intro s h1 h3
    exact ih (next s e) (absent_next s e h1 h2 h3)
      (Nat.lt_of_lt_of_le h3 (next_clock_le s e))

theorem mapGet_mapDelete_ne {m : List (String × PendingCommand)} {key x : String}
    (h : x ≠ key) : mapGet (mapDelete m key) x = mapGet m x := by
  induction m with
  | nil => rfl
  | cons q rest ih =>
    obtain ⟨k, v⟩ := q
    by_cases hk : k = key
    · subst hk; simp [mapDelete, mapGet, Ne.symm h]
    · by_cases hx : k = x
      · subst hx; simp [mapDelete, mapGet, hk]
      · simp [mapDelete, mapGet, hk, hx, ih]

theorem run_polls (s : State) (n : Nat) : run s (List.replicate n Event.poll) = s := by
  induction n with
  | zero => rfl
  | succ n ih =>
    show run (next s Event.poll) (List.replicate n Event.poll) = s
    rw [show next s Event.poll = s from poll_state s]
    exact ih

/-! ## The claims -/

/-- C7: a poll changes nothing in the state of the server (registry, timers,
log and everything else), so any number of consecutive polls leave the state as
it was and the poll that follows them gets the same response as a poll made
before them: the same `{id, command}` pair, or no content each time. -/
theorem poll_changes_nothing (s : State) (n : Nat) :
    (poll s).1 = s ∧
    (poll s).1.pendingCommands = s.pendingCommands ∧
    (poll s).1.timers = s.timers ∧
    (poll s).1.logs = s.logs ∧
    run s (List.replicate n Event.poll) = s ∧
    reply (run s (List.replicate n Event.poll)) Event.poll = reply s Event.poll := by
  have h := poll_state s
  refine ⟨h, by rw [h], by rw [h], by rw [h], run_polls s n, by rw [run_polls s n]⟩

/-- C8: a submit is answered 400 exactly when `cmd` is absent, is not a string
or is the empty string; a submit answered 400 leaves the whole state (log,
registry, timers, submissions: no id is generated) as it was, and a submit that
is not answered 400 is not answered at all when the handler returns. -/
theorem send_invalid_iff (s : State) (body : Body) (dt : Nat) :
    ((∃ resp, (send s body dt).2 = some resp ∧ resp.status = 400) ↔
      (body.get "cmd" = JVal.undefined ∨ (∀ c, body.get "cmd" ≠ JVal.str c) ∨
        body.get "cmd" = JVal.str "")) ∧
    ((∃ resp, (send s body dt).2 = some resp ∧ resp.status = 400) → (send s body dt).1 = s) ∧
    ((¬ ∃ resp, (send s body dt).2 = some resp ∧ resp.status = 400) →
      (send s body dt).2 = none) := by
  by_cases hb : badCmd (body.get "cmd") = true
  · have hrej := send_reject s body dt hb
    have h400 : ∃ resp, (send s body dt).2 = some resp ∧ resp.status = 400 :=
      ⟨sendRejected, by rw [hrej], rfl⟩
    refine ⟨⟨fun _ => ?_, fun _ => h400⟩, fun _ => by rw [hrej], fun h => absurd h400 h⟩
    by_cases hstr : ∃ c, body.get "cmd" = JVal.str c
    · obtain ⟨c, hc⟩ := hstr
      by_cases hc0 : c = ""
      · exact Or.inr (Or.inr (by rw [hc, hc0]))
      · have := badCmd_eq_false.2 ⟨c, hc, hc0⟩
        rw [this] at hb
        exact absurd hb (by decide)
    · exact Or.inr (Or.inl (fun c hc => hstr ⟨c, hc⟩))
  · obtain ⟨c, hc, hne⟩ := badCmd_eq_false.1 (by simpa using hb)
    have hacc := send_accept s body dt hc hne
    have hnone : (send s body dt).2 = none := by rw [hacc]
    have hno : ¬ ∃ resp, (send s body dt).2 = some resp ∧ resp.status = 400 := by
      rintro ⟨resp, h1, _⟩
      rw [hnone] at h1
      exact absurd h1 (by simp)
    refine ⟨⟨fun h => absurd h hno, ?_⟩, fun h => absurd h hno, fun _ => hnone⟩
    rintro (h | h | h)
    · rw [hc] at h; exact absurd h (by simp)
    · exact absurd hc (h c)
    · rw [hc] at h
      exact absurd (JVal.str.inj h) hne

/-- C10: an accepted submit (`cmd` a non-empty string) appends exactly the entry
`{id, command: cmd, timestamp, status: pending, result: null}` at the end of the
log, earlier entries untouched, maps `id` in the registry to a record whose
command is `cmd`, and schedules the timer of that record 15000 ms after the
submit; no response has been produced when the handler returns. -/
theorem send_registers (s : State) (body : Body) (dt : Nat) (cmd : String)
    (hcmd : body.get "cmd" = JVal.str cmd) (hne : cmd ≠ "") :
    (send s body dt).2 = none ∧
    (send s body dt).1.logs =
      s.logs ++ [⟨generateId s.clock, cmd, s.clock + dt, Status.pending, none⟩] ∧
    (∃ data, mapGet (send s body dt).1.pendingCommands (generateId s.clock) = some data ∧
      data.command = cmd ∧
      (⟨data.timeout, s.clock + dt + 15000⟩ : Timer) ∈ (send s body dt).1.timers ∧
      (send s body dt).1.submissions[data.resolve]? = some ⟨generateId s.clock, []⟩ ∧
      (∀ sub, (send s body dt).1.submissions[data.resolve]? = some sub →
        sub.response = none)) := by
  rw [send_accept s body dt hcmd hne]
  refine ⟨rfl, rfl, _, mapGet_mapSet_self _ _ _, rfl, ?_, ?_, ?_⟩
  · exact List.mem_append_right _ (List.mem_singleton_self _)
  · exact List.getElem?_concat_length _ _
  · intro sub hsub
    have h0 : (s.submissions ++ [(⟨generateId s.clock, []⟩ : Submission)])[s.submissions.length]?
        = some ⟨generateId s.clock, []⟩ := List.getElem?_concat_length _ _
    have h1 : some sub = some (⟨generateId s.clock, []⟩ : Submission) := hsub.symm.trans h0
    rw [Option.some.inj h1]
    rfl

/-- Witness of C10: submitting `whoami` at clock 1000 to a server that has just
started. -/
theorem send_registers_witness :
    (Body.get [("cmd", JVal.str "whoami")] "cmd" = JVal.str "whoami" ∧ "whoami" ≠ "") ∧
    (send (init [] 1000) [("cmd", JVal.str "whoami")] 0).1.logs =
      (init [] 1000).logs ++ [⟨generateId 1000, "whoami", 1000 + 0, Status.pending, none⟩] :=
  ⟨⟨rfl, by decide⟩,
    (send_registers (init [] 1000) [("cmd", JVal.str "whoami")] 0 "whoami" rfl (by decide)).2.1⟩

theorem fire_of_no_timer (s : State) (h : Nat) (hno : ∀ t ∈ s.timers, t.handle ≠ h) :
    fire s h = s := by
  rcases fire_cases s h with e | ⟨t, _, ht, hth, _⟩
  · exact e
  · exact absurd hth (hno t ht)

theorem report_absent (s : State) (body : Body) {key r : String}
    (hid : body.get "id" = JVal.str key) (hr : body.get "result" = JVal.str r)
    (hk : key ≠ "") (hd : mapGet s.pendingCommands key = none) :
    report s body = (s, ⟨404, Payload.error "Command ID not found or timed out"⟩) := by
  refine report_notFound s body ?_ ?_
  · rw [hid, hr]
    exact badReport_eq_false.2 ⟨by simp [JVal.truthy, hk], r, rfl⟩
  · rw [hid]; exact hd

/-- C4: in a reachable state where `id` is a key of the registry and the id of
exactly one log entry, a report of the string `r` for `id` is acknowledged with
`{message: "Result received"}`, removes `id` from the registry and leaves every
other key as it was, makes the suspended submit of that record, which had no
response yet, answer `{id, result: r}`, and changes the log only in that the
entry of `id` becomes `executed` with result `r`. -/
theorem report_fulfils (s : State) (hs : Reachable s) (body : Body) (id r : String)
    (data : PendingCommand)
    (hid : body.get "id" = JVal.str id) (hr : body.get "result" = JVal.str r)
    (hd : mapGet s.pendingCommands id = some data)
    (hone : (s.logs.filter (fun e => e.id = id)).length = 1) :
    (report s body).2 = ⟨200, Payload.message "Result received"⟩ ∧
    (report s body).1.pendingCommands = mapDelete s.pendingCommands id ∧
    mapGet (report s body).1.pendingCommands id = none ∧
    (∀ k, k ≠ id → mapGet (report s body).1.pendingCommands k = mapGet s.pendingCommands k) ∧
    (∃ sub, s.submissions[data.resolve]? = some sub ∧ sub.id = id ∧ sub.response = none ∧
      (report s body).1.submissions = s.submissions.set data.resolve ⟨id, [Settle.fulfil r]⟩ ∧
      ∃ sub2, (report s body).1.submissions[data.resolve]? = some sub2 ∧
        sub2.response = some ⟨200, Payload.result id r⟩) ∧
    (report s body).1.logs = s.logs.map (fun e =>
      if e.id = id then { e with status := Status.executed, result := some r } else e) := by
  have hI := inv_of_reachable hs
  obtain ⟨hrt, ⟨t, ht, hth⟩, sub, hsub, hsid⟩ := hI.pending_ok id data (mapGet_mem hd)
  obtain ⟨sub1, hs1, hs2, c, hc1, _⟩ := hI.timer_ok t ht
  have hsame : sub1 = sub := by
    rw [hth, ← hrt, hsub] at hs1
    exact (Option.some.inj hs1).symm
  subst hsame
  have hk : id ≠ "" := by
    rw [← hsid, hc1]; exact generateId_ne_empty c
  have hrep : report s body =
      ({ logs := updateLog s.logs id Status.executed r
         pendingCommands := mapDelete s.pendingCommands id
         timers := s.timers.filter (fun t => t.handle != data.timeout)
         submissions := s.submissions.set data.resolve ⟨id, [Settle.fulfil r]⟩
         clock := s.clock }, ⟨200, Payload.message "Result received"⟩) := by
    rw [report_found s body hid hr hk hd hsub]
    simp [hs2, hsid]
  rw [hrep]
  refine ⟨rfl, rfl, mapGet_mapDelete_self hI.keys_nodup,
    fun k hk2 => mapGet_mapDelete_ne hk2, ⟨sub1, hsub, hsid, ?_, rfl, ?_⟩, ?_⟩
  · simp [Submission.response, hs2]
  · refine ⟨⟨id, [Settle.fulfil r]⟩, ?_, rfl⟩
    rw [List.getElem?_set_self (lt_of_getElem?_eq_some hsub)]
  · exact updateLog_eq_map s.logs id Status.executed r (Nat.le_of_eq hone)

/-- Witness of C4 (the scenario of the specification): `whoami` is submitted at
clock 1000, then the result `root` is reported for its id. -/
theorem report_fulfils_witness :
    (Reachable (next (init [] 1000) (Event.send [("cmd", JVal.str "whoami")] 0)) ∧
      mapGet (next (init [] 1000) (Event.send [("cmd", JVal.str "whoami")] 0)).pendingCommands
        "1000" = some ⟨"whoami", 0, 0, 1000⟩) ∧
    (report (next (init [] 1000) (Event.send [("cmd", JVal.str "whoami")] 0))
      [("id", JVal.str "1000"), ("result", JVal.str "root")]).1.logs =
      (next (init [] 1000) (Event.send [("cmd", JVal.str "whoami")] 0)).logs.map (fun e =>
        if e.id = "1000" then { e with status := Status.executed, result := some "root" }
        else e) :=
  ⟨⟨Reachable.step _ (Reachable.init [] 1000), by decide⟩,
    (report_fulfils (next (init [] 1000) (Event.send [("cmd", JVal.str "whoami")] 0))
      (Reachable.step _ (Reachable.init [] 1000))
      [("id", JVal.str "1000"), ("result", JVal.str "root")] "1000" "root"
      ⟨"whoami", 0, 0, 1000⟩ rfl rfl (by decide) (by decide)).2.2.2.2.2⟩

/-- C5: in a reachable state where `id` is a key of the registry and the id of
exactly one log entry, when the timer of that record runs (its delay has
elapsed), `id` is removed from the registry and every other key is as it was,
the log changes only in that the entry of `id` becomes `timeout` with result
`Timeout: no response from client`, and the suspended submit of the record,
which had no response yet, answers 504 with that message. -/
theorem timeout_expires (s : State) (hs : Reachable s) (id : String) (data : PendingCommand)
    (t : Timer) (hd : mapGet s.pendingCommands id = some data)
    (hone : (s.logs.filter (fun e => e.id = id)).length = 1)
    (ht : t ∈ s.timers) (hth : t.handle = data.timeout) (hdl : t.deadline ≤ s.clock) :
    (fire s data.timeout).pendingCommands = mapDelete s.pendingCommands id ∧
    mapGet (fire s data.timeout).pendingCommands id = none ∧
    (∀ k, k ≠ id →
      mapGet (fire s data.timeout).pendingCommands k = mapGet s.pendingCommands k) ∧
    (fire s data.timeout).logs = s.logs.map (fun e =>
      if e.id = id then
        { e with status := Status.timeout, result := some "Timeout: no response from client" }
      else e) ∧
    (∃ sub, s.submissions[data.resolve]? = some sub ∧ sub.id = id ∧ sub.response = none ∧
      ∃ sub2, (fire s data.timeout).submissions[data.resolve]? = some sub2 ∧
        sub2.response = some ⟨504, Payload.error "Timeout: no response from client"⟩) := by
  have hI := inv_of_reachable hs
  obtain ⟨hrt, _, sub, hsub, hsid⟩ := hI.pending_ok id data (mapGet_mem hd)
  obtain ⟨sub1, hs1, hs2, _⟩ := hI.timer_ok t ht
  have hsame : sub1 = sub := by
    rw [hth, ← hrt, hsub] at hs1
    exact (Option.some.inj hs1).symm
  subst hsame
  have hsub2 : s.submissions[data.timeout]? = some sub1 := by rw [← hrt]; exact hsub
  have hfind := find_timer hI.handles_nodup ht
  rw [hth] at hfind
  have hfire : fire s data.timeout =
      { logs := updateLog s.logs id Status.timeout timeoutMessage
        pendingCommands := mapDelete s.pendingCommands id
        timers := s.timers.filter (fun t => t.handle != data.timeout)
        submissions := s.submissions.set data.timeout ⟨id, [Settle.reject timeoutMessage]⟩
        clock := s.clock } := by
    rw [fire_fired s data.timeout hfind hsub2 hdl]
    simp [hs2, hsid]
  rw [hfire]
  refine ⟨rfl, mapGet_mapDelete_self hI.keys_nodup, fun k hk2 => mapGet_mapDelete_ne hk2,
    ?_, ⟨sub1, hsub, hsid, ?_, ?_⟩⟩
  · exact updateLog_eq_map s.logs id Status.timeout timeoutMessage (Nat.le_of_eq hone)
  · simp [Submission.response, hs2]
  · refine ⟨⟨id, [Settle.reject timeoutMessage]⟩, ?_, rfl⟩
    rw [hrt, List.getElem?_set_self (lt_of_getElem?_eq_some hsub2)]

/-- Witness of C5 (the scenario of the specification): `ping` is submitted at
clock 1000 and no report arrives before the clock reaches 16000. -/
theorem timeout_expires_witness :
    (Reachable (run (init [] 1000) [Event.send [("cmd", JVal.str "ping")] 0, Event.tick 15000]) ∧
      (⟨0, 16000⟩ : Timer) ∈
        (run (init [] 1000) [Event.send [("cmd", JVal.str "ping")] 0, Event.tick 15000]).timers) ∧
    (fire (run (init [] 1000) [Event.send [("cmd", JVal.str "ping")] 0, Event.tick 15000])
      0).logs =
      (run (init [] 1000) [Event.send [("cmd", JVal.str "ping")] 0, Event.tick 15000]).logs.map
        (fun e => if e.id = "1000" then
          { e with status := Status.timeout, result := some "Timeout: no response from client" }
        else e) :=
  ⟨⟨reachable_run (Reachable.init [] 1000) _, by decide⟩,
    (timeout_expires
      (run (init [] 1000) [Event.send [("cmd", JVal.str "ping")] 0, Event.tick 15000])
      (reachable_run (Reachable.init [] 1000) _) "1000" ⟨"ping", 0, 0, 1000⟩ ⟨0, 16000⟩
      (by decide) (by decide) (by decide) rfl (by decide)).2.2.2.1⟩

/-- Witness of C8: a submit without `cmd` is answered 400 and changes nothing. -/
theorem send_invalid_iff_witness :
    (∃ resp, (send (init [] 1000) [] 0).2 = some resp ∧ resp.status = 400) ∧
    (send (init [] 1000) [] 0).1 = init [] 1000 :=
  ⟨(send_invalid_iff (init [] 1000) [] 0).1.2 (Or.inl rfl),
    (send_invalid_iff (init [] 1000) [] 0).2.1
      ((send_invalid_iff (init [] 1000) [] 0).1.2 (Or.inl rfl))⟩

/-- C6, as stated, fails: the empty string was never submitted, yet a report
that carries it as id (with a string result) is answered 400, not 404. -/
theorem report_empty_id_not_404 :
    Reachable (init [] 1000) ∧
    (∀ sub ∈ (init [] 1000).submissions, sub.id ≠ "") ∧
    (report (init [] 1000) [("id", JVal.str ""), ("result", JVal.str "x")]).2.status = 400 ∧
    (report (init [] 1000) [("id", JVal.str ""), ("result", JVal.str "x")]).2.status ≠ 404 :=
  ⟨Reachable.init [] 1000, by simp [init], by decide, by decide⟩

/-- C9, as stated, fails: a report whose id is the number 5, not a string, with
a string result, passes the validation and is answered 404, not 400. -/
theorem report_number_id_not_400 :
    (∀ k, Body.get [("id", JVal.num 5 0), ("result", JVal.str "x")] "id" ≠ JVal.str k) ∧
    (report (init [] 1000) [("id", JVal.num 5 0), ("result", JVal.str "x")]).2.status = 404 ∧
    (report (init [] 1000) [("id", JVal.num 5 0), ("result", JVal.str "x")]).2.status ≠ 400 :=
  ⟨fun k h => by simp [Body.get] at h, by decide, by decide⟩

/-- C9, amended: a report is answered 400 exactly when its id is falsy (absent,
null, false, the number 0 or the empty string) or its result is absent or not a
string, and then the whole state is left as it was; a report whose id is a
truthy value that is not a string (true, a non-zero number, an array, an
object), with a string result, is answered 404, the state also left as it
was. -/
theorem report_invalid (s : State) (body : Body) :
    ((report s body).2.status = 400 ↔
      (body.get "id" = JVal.undefined ∨ body.get "id" = JVal.null ∨
        body.get "id" = JVal.bool false ∨ (∃ e, body.get "id" = JVal.num 0 e) ∨
        body.get "id" = JVal.str "" ∨ (∀ r, body.get "result" ≠ JVal.str r))) ∧
    ((report s body).2.status = 400 → (report s body).1 = s) ∧
    ((body.get "id" = JVal.bool true ∨ (∃ m e, m ≠ 0 ∧ body.get "id" = JVal.num m e) ∨
        (∃ items, body.get "id" = JVal.arr items) ∨
        (∃ fields, body.get "id" = JVal.obj fields)) →
      (∃ r, body.get "result" = JVal.str r) →
      report s body = (s, ⟨404, Payload.error "Command ID not found or timed out"⟩)) := by
  have hbad : badReport (body.get "id") (body.get "result") = true ↔
      (body.get "id" = JVal.undefined ∨ body.get "id" = JVal.null ∨
        body.get "id" = JVal.bool false ∨ (∃ e, body.get "id" = JVal.num 0 e) ∨
        body.get "id" = JVal.str "" ∨ (∀ r, body.get "result" ≠ JVal.str r)) := by
    cases body.get "id" <;> cases body.get "result" <;>
      simp [badReport, JVal.truthy, JVal.typeof]
  have h400 : (report s body).2.status = 400 ↔
      badReport (body.get "id") (body.get "result") = true := by
    constructor
    · intro h
      by_contra hb
      rcases report_cases s body with ⟨resp, hrep, hst⟩ | ⟨key, r, data, hid, hr, hk, hd⟩
      · have hb2 : badReport (body.get "id") (body.get "result") = false := by simpa using hb
        cases hg : mapGetVal s.pendingCommands (body.get "id") with
        | none =>
          rw [report_notFound s body hb2 hg] at h
          exact absurd h (by simp)
        | some d =>
          cases hv : body.get "id" with
          | str k =>
            rw [hv] at hg
            obtain ⟨_, r, hr⟩ := badReport_eq_false.1 hb2
            have hk : k ≠ "" := by
              intro e
              rw [hv, hr, e] at hb2
              simp [badReport, JVal.truthy] at hb2
            rw [(report_found_state s body hv hr hk hg).1] at h
            exact absurd h (by decide)
          | _ => rw [hv] at hg; simp [mapGetVal] at hg
      · rw [(report_found_state s body hid hr hk hd).1] at h
        exact absurd h (by decide)
    · intro hb
      rw [report_bad s body hb]
  refine ⟨h400.trans hbad, ?_, ?_⟩
  · intro h
    rw [report_bad s body (h400.1 h)]
  · intro hid hres
    obtain ⟨r, hr⟩ := hres
    refine report_notFound s body (badReport_eq_false.2 ⟨?_, r, hr⟩) ?_
    · rcases hid with h | ⟨m, e, hm, h⟩ | ⟨l, h⟩ | ⟨l, h⟩
      · rw [h]; rfl
      · rw [h]; simp [JVal.truthy, hm]
      · rw [h]; rfl
      · rw [h]; rfl
    · rcases hid with h | ⟨m, e, _, h⟩ | ⟨l, h⟩ | ⟨l, h⟩ <;> rw [h] <;> rfl

/-- Witness of C9: a report without a result is answered 400 and changes
nothing. -/
theorem report_invalid_witness :
    (report (init [] 1000) [("id", JVal.str "1000")]).2.status = 400 ∧
    (report (init [] 1000) [("id", JVal.str "1000")]).1 = init [] 1000 :=
  ⟨(report_invalid (init [] 1000) [("id", JVal.str "1000")]).1.2
      (Or.inr (Or.inr (Or.inr (Or.inr (Or.inr (fun r h => by simp [Body.get] at h)))))),
    (report_invalid (init [] 1000) [("id", JVal.str "1000")]).2.1
      ((report_invalid (init [] 1000) [("id", JVal.str "1000")]).1.2
        (Or.inr (Or.inr (Or.inr (Or.inr (Or.inr (fun r h => by simp [Body.get] at h)))))))⟩

/-- C3 fails on the code: two submits that read the same clock value 1000 both
get the id `1000`.  The log then holds two entries with that id, the second
registration replaces the record of the first in the registry, and an id that a
report has removed from the registry is registered again by a submit of the same
tick. -/
theorem same_tick_same_id :
    (run (init [] 1000) [Event.send [("cmd", JVal.str "a")] 0,
      Event.send [("cmd", JVal.str "b")] 0]).logs.map LogEntry.id = ["1000", "1000"] ∧
    (run (init [] 1000) [Event.send [("cmd", JVal.str "a")] 0,
      Event.send [("cmd", JVal.str "b")] 0]).submissions.map Submission.id
        = ["1000", "1000"] ∧
    (run (init [] 1000) [Event.send [("cmd", JVal.str "a")] 0,
      Event.send [("cmd", JVal.str "b")] 0]).pendingCommands
        = [("1000", ⟨"b", 1, 1, 1000⟩)] ∧
    mapGet (run (init [] 1000) [Event.send [("cmd", JVal.str "a")] 0,
      Event.report [("id", JVal.str "1000"), ("result", JVal.str "done")]]).pendingCommands
        "1000" = none ∧
    mapGet (run (init [] 1000) [Event.send [("cmd", JVal.str "a")] 0,
      Event.report [("id", JVal.str "1000"), ("result", JVal.str "done")],
      Event.send [("cmd", JVal.str "b")] 0]).pendingCommands "1000"
        = some ⟨"b", 1, 1, 1000⟩ := by
  decide

/-- C2 fails on the code: after two submits of the same tick, a report for their
common id marks the first log entry `executed`; when the timer of the first
submit then runs, that same entry becomes `timeout` with another result, while
the entry of the second submit stays `pending`. -/
theorem executed_entry_becomes_timeout :
    Reachable (run (init [] 1000) [Event.send [("cmd", JVal.str "a")] 0,
      Event.send [("cmd", JVal.str "b")] 0,
      Event.report [("id", JVal.str "1000"), ("result", JVal.str "done")],
      Event.tick 15000]) ∧
    (run (init [] 1000) [Event.send [("cmd", JVal.str "a")] 0,
      Event.send [("cmd", JVal.str "b")] 0,
      Event.report [("id", JVal.str "1000"), ("result", JVal.str "done")],
      Event.tick 15000]).logs =
        [⟨"1000", "a", 1000, Status.executed, some "done"⟩,
          ⟨"1000", "b", 1000, Status.pending, none⟩] ∧
    (next (run (init [] 1000) [Event.send [("cmd", JVal.str "a")] 0,
      Event.send [("cmd", JVal.str "b")] 0,
      Event.report [("id", JVal.str "1000"), ("result", JVal.str "done")],
      Event.tick 15000]) (Event.fire 0)).logs =
        [⟨"1000", "a", 1000, Status.timeout, some "Timeout: no response from client"⟩,
          ⟨"1000", "b", 1000, Status.pending, none⟩] :=
  ⟨reachable_run (Reachable.init [] 1000) _, by decide, by decide⟩

/-! ## Without identifier collisions a settled log entry is final -/

theorem mem_updateLog {l : List LogEntry} {id : String} {st : Status} {r : String}
    {e : LogEntry} (h : e ∈ updateLog l id st r) : e ∈ l ∨ (e.id = id ∧ e.status = st) := by
  induction l with
  | nil => simp [updateLog] at h
  | cons a rest ih =>
    by_cases ha : a.id = id
    · simp only [updateLog, ha, if_true, List.mem_cons] at h
      rcases h with h | h
      · right; rw [h]; exact ⟨rfl, rfl⟩
      · left; exact List.mem_cons_of_mem _ h
    · simp only [updateLog, ha, if_false, List.mem_cons] at h
      rcases h with h | h
      · left; rw [h]; exact List.mem_cons_self _ _
      · rcases ih h with h1 | h1
        · left; exact List.mem_cons_of_mem _ h1
        · right; exact h1

theorem updateLog_getElem?_ne : ∀ (l : List LogEntry) (i : Nat) (e : LogEntry) (id : String)
    (st : Status) (r : String), l[i]? = some e → e.id ≠ id →
    (updateLog l id st r)[i]? = some e := by
  intro l
  induction l with
  | nil => intro i e id st r h _; simp at h
  | cons a rest ih =>
    intro i e id st r h hne
    cases i with
    | zero =>
      simp only [List.getElem?_cons_zero, Option.some.injEq] at h
      subst h
      simp [updateLog, hne]
    | succ j =>
      simp only [List.getElem?_cons_succ] at h
      by_cases ha : a.id = id
      · simp [updateLog, ha, h]
      · simp [updateLog, ha, ih j e id st r h hne]

/-- Distinct submissions have distinct ids when the ids of the log are pairwise
distinct. -/
theorem submission_ids_distinct {s : State} (hI : Inv s)
    (hnd : (s.logs.map LogEntry.id).Nodup) {i j : Nat} {a b : Submission}
    (hi : s.submissions[i]? = some a) (hj : s.submissions[j]? = some b) (hij : i ≠ j) :
    a.id ≠ b.id := by
  obtain ⟨pre, hpre⟩ := hI.log_ids
  rw [hpre] at hnd
  have hnd2 : (s.submissions.map Submission.id).Nodup := (List.nodup_append.1 hnd).2.1
  intro e
  have h1 : (s.submissions.map Submission.id)[i]? = some a.id := by simp [hi]
  have h2 : (s.submissions.map Submission.id)[j]? = some a.id := by simp [hj, e]
  obtain ⟨hi1, hi2⟩ := List.getElem?_eq_some.1 h1
  obtain ⟨hj1, hj2⟩ := List.getElem?_eq_some.1 h2
  exact hij ((List.Nodup.getElem_inj_iff hnd2).1 (hi2.trans hj2.symm))

theorem settledOut_init (logs : List LogEntry) (clock : Nat) : SettledOut (init logs clock) := by
  intro e _ _
  exact ⟨rfl, fun t ht => by simp [init] at ht⟩

theorem settledOut_send {s : State} (hI : Inv s)
    (hS : (s.logs.map LogEntry.id).Nodup → SettledOut s) (body : Body) (dt : Nat)
    (hnd : ((send s body dt).1.logs.map LogEntry.id).Nodup) : SettledOut (send s body dt).1 := by
  by_cases hb : badCmd (body.get "cmd") = true
  · rw [send_reject s body dt hb] at hnd ⊢
    exact hS hnd
  · obtain ⟨c, hc, hne⟩ := badCmd_eq_false.1 (by simpa using hb)
    rw [send_accept s body dt hc hne] at hnd ⊢
    simp only [List.map_append, List.map_cons, List.map_nil] at hnd
    obtain ⟨hnd1, _, hdisj⟩ := List.nodup_append.1 hnd
    intro e he hst
    rcases List.mem_append.1 he with hm | hm
    · obtain ⟨h1, h2⟩ := hS hnd1 e hm hst
      have hne2 : e.id ≠ generateId s.clock := by
        intro h
        exact hdisj (List.mem_map_of_mem LogEntry.id hm) (by rw [h]; exact List.mem_singleton_self _)
      refine ⟨by rw [mapGet_mapSet_ne hne2]; exact h1, ?_⟩
      intro t ht sub hsub
      rcases List.mem_append.1 ht with htm | htm
      · obtain ⟨sub0, hs0, _⟩ := hI.timer_ok t htm
        rw [List.getElem?_append_left (lt_of_getElem?_eq_some hs0)] at hsub
        exact h2 t htm sub hsub
      · rw [List.mem_singleton] at htm
        subst htm
        have h0 : (s.submissions ++ [(⟨generateId s.clock, []⟩ : Submission)])[s.submissions.length]?
            = some ⟨generateId s.clock, []⟩ := List.getElem?_concat_length _ _
        have h3 : some sub = some (⟨generateId s.clock, []⟩ : Submission) := hsub.symm.trans h0
        rw [Option.some.inj h3]
        exact fun h => hne2 h.symm
    · rw [List.mem_singleton] at hm
      subst hm
      exact absurd rfl hst

theorem settledOut_report {s : State} (hI : Inv s)
    (hS : (s.logs.map LogEntry.id).Nodup → SettledOut s) (body : Body)
    (hnd : ((report s body).1.logs.map LogEntry.id).Nodup) : SettledOut (report s body).1 := by
  rcases report_cases s body with ⟨resp, h, _⟩ | ⟨key, r, data, hid, hr, hk, hd⟩
  · rw [h] at hnd ⊢; exact hS hnd
  · obtain ⟨hrt, ⟨t, ht, hth⟩, sub, hsub, hsid⟩ := hI.pending_ok key data (mapGet_mem hd)
    rw [report_found s body hid hr hk hd hsub] at hnd ⊢
    have hids : (s.logs.map LogEntry.id).Nodup := by
      by_cases h0 : sub.settles = []
      · simpa [h0, updateLog_ids] using hnd
      · simpa [h0] using hnd
    have hS0 := hS hids
    intro e he hst
    have hset : ∀ (i : Nat) (x : Submission),
        (s.submissions.set data.resolve
          { sub with settles := sub.settles ++ [Settle.fulfil r] })[i]? = some x →
        ∃ y, s.submissions[i]? = some y ∧ y.id = x.id := by
      intro i x hx
      by_cases hi : data.resolve = i
      · subst hi
        rw [List.getElem?_set_self (lt_of_getElem?_eq_some hsub)] at hx
        exact ⟨sub, hsub, by rw [← Option.some.inj hx]⟩
      · rw [List.getElem?_set_ne hi] at hx
        exact ⟨x, hx, rfl⟩
    have hold : ∀ e0 ∈ s.logs, e0.status ≠ Status.pending → e0.id = e.id →
        mapGet (mapDelete s.pendingCommands key) e.id = none ∧
        ∀ t ∈ s.timers.filter (fun t => t.handle != data.timeout), ∀ x,
          (s.submissions.set data.resolve
            { sub with settles := sub.settles ++ [Settle.fulfil r] })[t.handle]? = some x →
          x.id ≠ e.id := by
      intro e0 he0 hst0 hid0
      obtain ⟨h1, h2⟩ := hS0 e0 he0 hst0
      rw [hid0] at h1 h2
      refine ⟨mapGet_mapDelete_of_none h1, ?_⟩
      intro t2 ht2 x hx
      obtain ⟨y, hy, hyx⟩ := hset _ x hx
      rw [← hyx]
      exact h2 t2 (List.mem_filter.1 ht2).1 y hy
    have hnew : e.id = key →
        mapGet (mapDelete s.pendingCommands key) e.id = none ∧
        ∀ t ∈ s.timers.filter (fun t => t.handle != data.timeout), ∀ x,
          (s.submissions.set data.resolve
            { sub with settles := sub.settles ++ [Settle.fulfil r] })[t.handle]? = some x →
          x.id ≠ e.id := by
      intro hek
      rw [hek]
      refine ⟨mapGet_mapDelete_self hI.keys_nodup, ?_⟩
      intro t2 ht2 x hx
      obtain ⟨hm, hne⟩ := List.mem_filter.1 ht2
      have hne2 : t2.handle ≠ data.resolve := by
        rw [hrt]; simpa using hne
      rw [List.getElem?_set_ne (Ne.symm hne2)] at hx
      rw [← hsid]
      exact submission_ids_distinct hI hids hx hsub hne2
    show mapGet (mapDelete s.pendingCommands key) e.id = none ∧
        ∀ t ∈ s.timers.filter (fun t => t.handle != data.timeout), ∀ x,
          (s.submissions.set data.resolve
            { sub with settles := sub.settles ++ [Settle.fulfil r] })[t.handle]? = some x →
          x.id ≠ e.id
    by_cases h0 : sub.settles = []
    · have he2 : e ∈ updateLog s.logs sub.id Status.executed r := by simpa [h0] using he
      rcases mem_updateLog he2 with hm | ⟨hm, _⟩
      · exact hold e hm hst rfl
      · exact hnew (hm.trans hsid)
    · have he2 : e ∈ s.logs := by simpa [h0] using he
      exact hold e he2 hst rfl

theorem settledOut_fire {s : State} (hI : Inv s)
    (hS : (s.logs.map LogEntry.id).Nodup → SettledOut s) (h : Nat)
    (hnd : ((fire s h).logs.map LogEntry.id).Nodup) : SettledOut (fire s h) := by
  rcases fire_cases s h with e | ⟨t, sub, ht, hth, hd, hsub, hfind⟩
  · rw [e] at hnd ⊢; exact hS hnd
  · rw [fire_fired s h hfind hsub hd] at hnd ⊢
    have hids : (s.logs.map LogEntry.id).Nodup := by simpa [updateLog_ids] using hnd
    have hS0 := hS hids
    intro e he hst
    have hset : ∀ (i : Nat) (x : Submission),
        (s.submissions.set h
          { sub with settles := sub.settles ++ [Settle.reject timeoutMessage] })[i]? = some x →
        ∃ y, s.submissions[i]? = some y ∧ y.id = x.id := by
      intro i x hx
      by_cases hi : h = i
      · subst hi
        rw [List.getElem?_set_self (lt_of_getElem?_eq_some hsub)] at hx
        exact ⟨sub, hsub, by rw [← Option.some.inj hx]⟩
      · rw [List.getElem?_set_ne hi] at hx
        exact ⟨x, hx, rfl⟩
    show mapGet (mapDelete s.pendingCommands sub.id) e.id = none ∧
        ∀ t ∈ s.timers.filter (fun t => t.handle != h), ∀ x,
          (s.submissions.set h
            { sub with settles := sub.settles ++ [Settle.reject timeoutMessage] })[t.handle]?
              = some x → x.id ≠ e.id
    have he2 : e ∈ updateLog s.logs sub.id Status.timeout timeoutMessage := he
    rcases mem_updateLog he2 with hm | ⟨hm, _⟩
    · obtain ⟨h1, h2⟩ := hS0 e hm hst
      refine ⟨mapGet_mapDelete_of_none h1, ?_⟩
      intro t2 ht2 x hx
      obtain ⟨y, hy, hyx⟩ := hset _ x hx
      rw [← hyx]
      exact h2 t2 (List.mem_filter.1 ht2).1 y hy
    · rw [hm]
      refine ⟨mapGet_mapDelete_self hI.keys_nodup, ?_⟩
      intro t2 ht2 x hx
      obtain ⟨_, hne⟩ := List.mem_filter.1 ht2
      have hne2 : t2.handle ≠ h := by simpa using hne
      rw [List.getElem?_set_ne (Ne.symm hne2)] at hx
      exact submission_ids_distinct hI hids hx hsub hne2

/-- The ids of the log after an event are those before it, possibly followed by
one new id. -/
theorem next_log_ids (s : State) (e : Event) :
    (next s e).logs.map LogEntry.id = s.logs.map LogEntry.id ∨
    ∃ x, (next s e).logs.map LogEntry.id = s.logs.map LogEntry.id ++ [x] := by
  cases e with
  | send body dt =>
    by_cases hb : badCmd (body.get "cmd") = true
    · left; simp [next, send_reject s body dt hb]
    · obtain ⟨c, hc, hne⟩ := badCmd_eq_false.1 (by simpa using hb)
      right
      exact ⟨generateId s.clock, by simp [next, send_accept s body dt hc hne]⟩
  | poll => left; simp [next, poll_state]
  | report body =>
    left
    simp only [next, report]
    split
    · rfl
    · split
      · simp only [resolvePromise]
        split
        · rfl
        · split <;> simp [updateLog_ids]
      · rfl
  | getLogs => left; simp [next, getLogs]
  | fire h =>
    left
    rcases fire_cases s h with e | ⟨t2, sub, _, _, hd, hsub, hfind⟩
    · simp [next, e]
    · simp [next, fire_fired s h hfind hsub hd, updateLog_ids]
  | tick d => left; simp [next]

theorem settledOut_of_reachable {s : State} (hs : Reachable s) :
    (s.logs.map LogEntry.id).Nodup → SettledOut s := by
  induction hs with
  | init logs clock => exact fun _ => settledOut_init logs clock
  | @step s e hs ih =>
    intro hnd
    have hI := inv_of_reachable hs
    have hnd0 : (s.logs.map LogEntry.id).Nodup := by
      rcases next_log_ids s e with h | ⟨x, h⟩
      · rw [h] at hnd; exact hnd
      · rw [h] at hnd; exact (List.nodup_append.1 hnd).1
    cases e with
    | send body dt => exact settledOut_send hI ih body dt hnd
    | poll => rw [show next s Event.poll = s from poll_state s]; exact ih hnd0
    | report body => exact settledOut_report hI ih body hnd
    | getLogs => exact ih hnd0
    | fire h => exact settledOut_fire hI ih h hnd
    | tick d => exact ih hnd0

/-- When the ids of the log are pairwise distinct, an entry that has left
`pending` is the same entry, at the same place, after any event. -/
theorem settled_entry_final (s : State) (hs : Reachable s)
    (hnd : (s.logs.map LogEntry.id).Nodup) (e : Event) (i : Nat) (entry : LogEntry)
    (hi : s.logs[i]? = some entry) (hst : entry.status ≠ Status.pending) :
    (next s e).logs[i]? = some entry := by
  have hI := inv_of_reachable hs
  obtain ⟨h1, h2⟩ := settledOut_of_reachable hs hnd entry (List.getElem?_mem hi) hst
  cases e with
  | send body dt =>
    by_cases hb : badCmd (body.get "cmd") = true
    · simpa [next, send_reject s body dt hb] using hi
    · obtain ⟨c, hc, hne⟩ := badCmd_eq_false.1 (by simpa using hb)
      simp only [next, send_accept s body dt hc hne]
      rw [List.getElem?_append_left (lt_of_getElem?_eq_some hi)]
      exact hi
  | poll => rw [show next s Event.poll = s from poll_state s]; exact hi
  | report body =>
    rcases report_cases s body with ⟨resp, h, _⟩ | ⟨key, r, data, hid, hr, hk, hd⟩
    · simpa [next, h] using hi
    · obtain ⟨_, _, sub, hsub, hsid⟩ := hI.pending_ok key data (mapGet_mem hd)
      simp only [next, report_found s body hid hr hk hd hsub]
      have hne : entry.id ≠ sub.id := by
        intro h
        rw [h, hsid, hd] at h1
        exact absurd h1 (by simp)
      by_cases h0 : sub.settles = []
      · simp only [h0, if_true]
        exact updateLog_getElem?_ne _ _ _ _ _ _ hi hne
      · simp only [h0, if_false]
        exact hi
  | getLogs => exact hi
  | fire h =>
    rcases fire_cases s h with e | ⟨t, sub, ht, hth, hd, hsub, hfind⟩
    · simpa [next, e] using hi
    · simp only [next, fire_fired s h hfind hsub hd]
      have hne : entry.id ≠ sub.id := by
        intro h3
        exact h2 t ht sub (by rw [hth]; exact hsub) h3.symm
      exact updateLog_getElem?_ne _ _ _ _ _ _ hi hne
  | tick d => exact hi

/-! ## The log only grows -/

theorem updateLog_triples (l : List LogEntry) (id : String) (st : Status) (r : String) :
    (updateLog l id st r).map LogEntry.triple = l.map LogEntry.triple := by
  induction l with
  | nil => rfl
  | cons e rest ih =>
    by_cases he : e.id = id
    · simp [updateLog, he, LogEntry.triple]
    · simp [updateLog, he, ih]

theorem report_log_triples (s : State) (body : Body) :
    (report s body).1.logs.map LogEntry.triple = s.logs.map LogEntry.triple := by
  simp only [report]
  split
  · rfl
  · split
    · simp only [resolvePromise]
      split
      · rfl
      · split <;> simp [updateLog_triples]
    · rfl

theorem fire_log_triples (s : State) (h : Nat) :
    (fire s h).logs.map LogEntry.triple = s.logs.map LogEntry.triple := by
  rcases fire_cases s h with e | ⟨t, sub, _, _, hd, hsub, hfind⟩
  · rw [e]
  · rw [fire_fired s h hfind hsub hd]
    exact updateLog_triples _ _ _ _

theorem triples_length {l1 l2 : List LogEntry}
    (h : l1.map LogEntry.triple = l2.map LogEntry.triple) : l1.length = l2.length := by
  have := congrArg List.length h
  simpa using this

/-- An event is an accepted submit, which appends its entry to the log, or it
leaves the written-once fields of all entries as they are. -/
theorem next_log_cases (s : State) (e : Event) :
    (∃ body dt c, e = Event.send body dt ∧ body.get "cmd" = JVal.str c ∧ c ≠ "" ∧
      reply s e = none ∧
      (next s e).logs = s.logs ++ [⟨generateId s.clock, c, s.clock + dt, Status.pending, none⟩]) ∨
    ((¬ ∃ body dt, e = Event.send body dt ∧ reply s e = none) ∧
      (next s e).logs.map LogEntry.triple = s.logs.map LogEntry.triple) := by
  cases e with
  | send body dt =>
    by_cases hb : badCmd (body.get "cmd") = true
    · right
      refine ⟨?_, by simp [next, send_reject s body dt hb]⟩
      rintro ⟨b, d, he, hr⟩
      cases he
      simp [reply, send_reject s body dt hb] at hr
    · obtain ⟨c, hc, hne⟩ := badCmd_eq_false.1 (by simpa using hb)
      left
      exact ⟨body, dt, c, rfl, hc, hne, by simp [reply, send_accept s body dt hc hne],
        by simp [next, send_accept s body dt hc hne]⟩
  | poll =>
    right
    exact ⟨(by rintro ⟨b, d, he, _⟩; cases he), by rw [show next s Event.poll = s from poll_state s]⟩
  | report body =>
    right
    exact ⟨(by rintro ⟨b, d, he, _⟩; cases he), report_log_triples s body⟩
  | getLogs => right; exact ⟨(by rintro ⟨b, d, he, _⟩; cases he), rfl⟩
  | fire h => right; exact ⟨(by rintro ⟨b, d, he, _⟩; cases he), fire_log_triples s h⟩
  | tick d => right; exact ⟨(by rintro ⟨b, d, he, _⟩; cases he), rfl⟩

theorem next_log_grows (s : State) (e : Event) :
    s.logs.map LogEntry.triple <+: (next s e).logs.map LogEntry.triple := by
  rcases next_log_cases s e with ⟨_, _, _, _, _, _, _, h⟩ | ⟨_, h⟩
  · rw [h, List.map_append]; exact List.prefix_append _ _
  · rw [h]

theorem run_log_grows (es : List Event) : ∀ s : State,
    s.logs.map LogEntry.triple <+: (run s es).logs.map LogEntry.triple := by
  induction es with
  | nil => intro s; exact List.prefix_refl _
  | cons e es ih => intro s; exact (next_log_grows s e).trans (ih (next s e))

theorem triples_commands {l1 l2 : List LogEntry}
    (h : l1.map LogEntry.triple = l2.map LogEntry.triple) :
    l1.map LogEntry.command = l2.map LogEntry.command := by
  have := congrArg (List.map (fun t : String × String × Nat => t.2.1)) h
  simpa [List.map_map, Function.comp, LogEntry.triple] using this

theorem run_log_commands (es : List Event) : ∀ s : State,
    (run s es).logs.map LogEntry.command = s.logs.map LogEntry.command ++ acceptedCommands es := by
  induction es with
  | nil => intro s; simp [run, acceptedCommands]
  | cons e es ih =>
    intro s
    show (run (next s e) es).logs.map LogEntry.command = _
    rw [ih (next s e)]
    rcases next_log_cases s e with ⟨body, dt, c, he, hc, hne, _, h⟩ | ⟨hno, h⟩
    · subst he
      have hb : badCmd (body.get "cmd") = false := badCmd_eq_false.2 ⟨c, hc, hne⟩
      simp only [acceptedCommands, hb, Bool.false_eq_true, if_false]
      rw [h, hc]
      simp
    · rw [triples_commands h]
      cases e with
      | send body dt =>
        have hb : badCmd (body.get "cmd") = true := by
          by_contra hb
          obtain ⟨c, hc, hne⟩ := badCmd_eq_false.1 (by simpa using hb)
          exact hno ⟨body, dt, rfl, by simp [reply, send_accept s body dt hc hne]⟩
        simp [acceptedCommands, hb]
      | poll => simp [acceptedCommands]
      | report body => simp [acceptedCommands]
      | getLogs => simp [acceptedCommands]
      | fire h => simp [acceptedCommands]
      | tick d => simp [acceptedCommands]

/-- C11: every event leaves the sequence of (id, command, timestamp) triples of
the log as a prefix of the sequence after it; an accepted submit makes the log
exactly one entry longer, and any other event (poll, report, timer, rejected
request, reading the log) keeps the triples, hence the length; reading the log
returns the whole log and leaves the state as it was; and after any sequence of
events the log lists, after the entries it started with, one entry per accepted
submit, in the order of the submits. -/
theorem log_append_only (s : State) (e : Event) (es : List Event) :
    s.logs.map LogEntry.triple <+: (next s e).logs.map LogEntry.triple ∧
    ((∃ body dt, e = Event.send body dt ∧ reply s e = none) →
      (next s e).logs.length = s.logs.length + 1 ∧
      ∃ entry, (next s e).logs = s.logs ++ [entry] ∧ entry.status = Status.pending) ∧
    ((¬ ∃ body dt, e = Event.send body dt ∧ reply s e = none) →
      (next s e).logs.map LogEntry.triple = s.logs.map LogEntry.triple ∧
      (next s e).logs.length = s.logs.length) ∧
    ((getLogs s).1 = s ∧ (getLogs s).2 = ⟨200, Payload.logs s.logs⟩) ∧
    s.logs.map LogEntry.triple <+: (run s es).logs.map LogEntry.triple ∧
    (run s es).logs.map LogEntry.command =
      s.logs.map LogEntry.command ++ acceptedCommands es ∧
    (getLogs (run s es)).2 = ⟨200, Payload.logs (run s es).logs⟩ := by
  refine ⟨next_log_grows s e, ?_, ?_, ⟨rfl, rfl⟩, run_log_grows es s, run_log_commands es s, rfl⟩
  · intro hacc
    rcases next_log_cases s e with ⟨_, _, _, _, _, _, _, h⟩ | ⟨hno, _⟩
    · exact ⟨by rw [h]; simp, _, h, rfl⟩
    · exact absurd hacc hno
  · intro hno
    rcases next_log_cases s e with ⟨body, dt, _, he, _, _, hr, _⟩ | ⟨_, h⟩
    · exact absurd ⟨body, dt, he, hr⟩ hno
    · exact ⟨h, triples_length h⟩

/-- Witness of C11: `whoami` submitted at clock 1000 makes the empty log one
entry long. -/
theorem log_append_only_witness :
    (∃ body dt, Event.send [("cmd", JVal.str "whoami")] 0 = Event.send body dt ∧
      reply (init [] 1000) (Event.send [("cmd", JVal.str "whoami")] 0) = none) ∧
    (next (init [] 1000) (Event.send [("cmd", JVal.str "whoami")] 0)).logs.length
      = (init [] 1000).logs.length + 1 :=
  ⟨⟨_, _, rfl, rfl⟩,
    ((log_append_only (init [] 1000) (Event.send [("cmd", JVal.str "whoami")] 0) []).2.1
      ⟨_, _, rfl, rfl⟩).1⟩

/-! ## The order of the registry -/

theorem idClock_generateId (c : Nat) : idClock (generateId c) = c := readDigits_repr c

theorem mem_mapSet_or {m : List (String × PendingCommand)} {key : String}
    {val : PendingCommand} {p : String × PendingCommand} (h : p ∈ mapSet m key val) :
    p = (key, val) ∨ p ∈ m := by
  induction m with
  | nil => left; simpa [mapSet] using h
  | cons q rest ih =>
    obtain ⟨k, v⟩ := q
    by_cases hk : k = key
    · simp only [mapSet, hk, if_true, List.mem_cons] at h
      rcases h with h | h
      · exact Or.inl h
      · exact Or.inr (List.mem_cons_of_mem _ h)
    · simp only [mapSet, hk, if_false, List.mem_cons] at h
      rcases h with h | h
      · right; rw [h]; exact List.mem_cons_self _ _
      · rcases ih h with h1 | h1
        · exact Or.inl h1
        · exact Or.inr (List.mem_cons_of_mem _ h1)

/-- A `set` keeps the keys that are present in their order, and puts a key that
is new after all of them. -/
theorem mapKeys_mapSet_eq (m : List (String × PendingCommand)) (key : String)
    (val : PendingCommand) :
    mapKeys (mapSet m key val) = if key ∈ mapKeys m then mapKeys m else mapKeys m ++ [key] := by
  induction m with
  | nil => simp [mapSet, mapKeys]
  | cons q rest ih =>
    obtain ⟨k, v⟩ := q
    simp only [mapKeys] at ih
    by_cases hk : k = key
    · subst hk; simp [mapSet, mapKeys]
    · have hk2 : ¬ key = k := fun h => hk h.symm
      by_cases hin : key ∈ List.map Prod.fst rest
      · simp only [mapSet, hk, if_false, mapKeys, List.map_cons, ih, hin, if_true,
          List.mem_cons, or_true]
      · simp only [mapSet, hk, if_false, mapKeys, List.map_cons, ih, hin, List.mem_cons,
          hk2, or_self, List.cons_append]

/-- A `delete` removes the key and keeps the other keys in their order. -/
theorem mapKeys_mapDelete_eq (m : List (String × PendingCommand)) (key : String) :
    mapKeys (mapDelete m key) = (mapKeys m).erase key := by
  induction m with
  | nil => rfl
  | cons q rest ih =>
    obtain ⟨k, v⟩ := q
    simp only [mapKeys] at ih
    by_cases hk : k = key
    · subst hk; simp [mapDelete, mapKeys]
    · simp [mapDelete, mapKeys, hk, ih, List.erase_cons_tail]

theorem pairwise_mapSet (c h : Nat) (val : PendingCommand) (hval : val.resolve = h) :
    ∀ m : List (String × PendingCommand), m.Pairwise Before →
    (∀ p ∈ m, p.1 = generateId (idClock p.1) ∧ idClock p.1 ≤ c ∧ p.2.resolve < h) →
    (mapSet m (generateId c) val).Pairwise Before := by
  intro m
  induction m with
  | nil => intro _ _; simp [mapSet]
  | cons q rest ih =>
    intro hp hm
    obtain ⟨k, v⟩ := q
    obtain ⟨hq, hrest⟩ := List.pairwise_cons.1 hp
    obtain ⟨hk1, hk2, hk3⟩ := hm (k, v) (List.mem_cons_self _ _)
    by_cases hk : k = generateId c
    · simp only [mapSet, hk, if_true]
      refine List.pairwise_cons.2 ⟨?_, hrest⟩
      intro p hpm
      have h1 := (hq p hpm).1
      have h2 := (hm p (List.mem_cons_of_mem _ hpm)).2.1
      have h3 : idClock k = c := by rw [hk]; exact idClock_generateId c
      simp only at h1
      omega
    · simp only [mapSet, hk, if_false]
      refine List.pairwise_cons.2 ⟨?_, ih hrest (fun p hpm => hm p (List.mem_cons_of_mem _ hpm))⟩
      intro p hpm
      rcases mem_mapSet_or hpm with e | hin
      · rw [e]
        have hk1b : k = generateId (idClock k) := hk1
        have hne : idClock k ≠ c := by
          intro e2
          exact hk (hk1b.trans (by rw [e2]))
        refine ⟨?_, ?_⟩
        · show idClock k < idClock (generateId c)
          rw [idClock_generateId]
          simp only at hk2
          omega
        · show v.resolve < val.resolve
          rw [hval]; exact hk3
      · exact hq p hin

theorem ordered_init (logs : List LogEntry) (clock : Nat) : Ordered (init logs clock) :=
  ⟨by simp [init], by simp [init]⟩

theorem ordered_delete {s : State} (hO : Ordered s) (key : String) :
    (mapDelete s.pendingCommands key).Pairwise Before ∧
    ∀ p ∈ mapDelete s.pendingCommands key, p.1 = generateId (idClock p.1) ∧ idClock p.1 ≤ s.clock :=
  ⟨hO.1.sublist (mapDelete_sublist _ _), fun p hp => hO.2 p (mem_of_mem_mapDelete hp)⟩

theorem ordered_next {s : State} (hI : Inv s) (hO : Ordered s) (e : Event) :
    Ordered (next s e) := by
  cases e with
  | send body dt =>
    by_cases hb : badCmd (body.get "cmd") = true
    · simpa [next, send_reject s body dt hb] using hO
    · obtain ⟨c, hc, hne⟩ := badCmd_eq_false.1 (by simpa using hb)
      simp only [next, send_accept s body dt hc hne]
      refine ⟨pairwise_mapSet s.clock s.submissions.length _ rfl _ hO.1 ?_, ?_⟩
      · intro p hp
        obtain ⟨h1, h2⟩ := hO.2 p hp
        obtain ⟨_, _, sub, hsub, _⟩ := hI.pending_ok p.1 p.2 hp
        exact ⟨h1, h2, lt_of_getElem?_eq_some hsub⟩
      · intro p hp
        show p.1 = generateId (idClock p.1) ∧ idClock p.1 ≤ s.clock + dt
        rcases mem_mapSet_or hp with e | hin
        · rw [e]
          show generateId s.clock = generateId (idClock (generateId s.clock)) ∧
            idClock (generateId s.clock) ≤ s.clock + dt
          rw [idClock_generateId]
          exact ⟨rfl, Nat.le_add_right _ _⟩
        · obtain ⟨h1, h2⟩ := hO.2 p hin
          exact ⟨h1, Nat.le_trans h2 (Nat.le_add_right _ _)⟩
  | poll => rw [show next s Event.poll = s from poll_state s]; exact hO
  | report body =>
    rcases report_cases s body with ⟨resp, h, _⟩ | ⟨key, r, data, hid, hr, hk, hd⟩
    · simpa [next, h] using hO
    · obtain ⟨_, hp, _, hc, _⟩ := report_found_state s body hid hr hk hd
      show (report s body).1.pendingCommands.Pairwise Before ∧
        ∀ p ∈ (report s body).1.pendingCommands,
          p.1 = generateId (idClock p.1) ∧ idClock p.1 ≤ (report s body).1.clock
      rw [hp, hc]
      exact ordered_delete hO key
  | getLogs => exact hO
  | fire h =>
    rcases fire_cases s h with e | ⟨t, sub, _, _, hd, hsub, hfind⟩
    · simpa [next, e] using hO
    · simp only [next, fire_fired s h hfind hsub hd]
      exact ordered_delete hO sub.id
  | tick d =>
    exact ⟨hO.1, fun p hp => ⟨(hO.2 p hp).1, Nat.le_trans (hO.2 p hp).2 (Nat.le_add_right _ _)⟩⟩

theorem ordered_of_reachable {s : State} (hs : Reachable s) : Ordered s := by
  induction hs with
  | init logs clock => exact ordered_init logs clock
  | step e hs ih => exact ordered_next (inv_of_reachable hs) ih e

/-- C12: a poll answers 204 exactly when the registry is empty; otherwise it
answers the `{id, command}` of the first entry of the registry in iteration
order.  That order is the order of insertion of the keys (a `set` keeps a key
that is present at its place and puts a new key last, a `delete` removes the
key and keeps the order of the others), and in a reachable state every later
entry has an id generated at a later clock reading and belongs to a later
submit: the poll answers the earliest-submitted waiting command. -/
theorem poll_answers_earliest (s : State) :
    ((poll s).2.status = 204 ↔ s.pendingCommands = []) ∧
    (s.pendingCommands = [] → (poll s).2 = ⟨204, Payload.empty⟩) ∧
    (∀ id data rest, s.pendingCommands = (id, data) :: rest →
      (poll s).2 = ⟨200, Payload.command id data.command⟩ ∧
      (Reachable s → ∀ p ∈ rest, idClock id < idClock p.1 ∧ data.resolve < p.2.resolve)) ∧
    (∀ m key val, mapKeys (mapSet m key val) =
      if key ∈ mapKeys m then mapKeys m else mapKeys m ++ [key]) ∧
    (∀ m key, mapKeys (mapDelete m key) = (mapKeys m).erase key) := by
  refine ⟨?_, ?_, ?_, mapKeys_mapSet_eq, mapKeys_mapDelete_eq⟩
  · cases h : s.pendingCommands with
    | nil => simp [poll, h]
    | cons p rest => obtain ⟨k, v⟩ := p; simp [poll, h]
  · intro h; simp [poll, h]
  · intro id data rest h
    refine ⟨by simp [poll, h], fun hs p hp => ?_⟩
    have hO := (ordered_of_reachable hs).1
    rw [h] at hO
    exact (List.pairwise_cons.1 hO).1 p hp

/-- Witness of C12: `a` submitted at clock 1000 and `b` at clock 1001 are both
waiting; the poll answers `a`. -/
theorem poll_answers_earliest_witness :
    ((run (init [] 1000) [Event.send [("cmd", JVal.str "a")] 0, Event.tick 1,
        Event.send [("cmd", JVal.str "b")] 0]).pendingCommands =
        ("1000", ⟨"a", 0, 0, 1000⟩) :: [("1001", ⟨"b", 1, 1, 1001⟩)] ∧
      Reachable (run (init [] 1000) [Event.send [("cmd", JVal.str "a")] 0, Event.tick 1,
        Event.send [("cmd", JVal.str "b")] 0])) ∧
    (poll (run (init [] 1000) [Event.send [("cmd", JVal.str "a")] 0, Event.tick 1,
        Event.send [("cmd", JVal.str "b")] 0])).2 = ⟨200, Payload.command "1000" "a"⟩ ∧
    ∀ p ∈ [(("1001", ⟨"b", 1, 1, 1001⟩) : String × PendingCommand)],
      idClock "1000" < idClock p.1 ∧ (0 : Nat) < p.2.resolve :=
  ⟨⟨by decide, reachable_run (Reachable.init [] 1000) _⟩,
    ((poll_answers_earliest
      (run (init [] 1000) [Event.send [("cmd", JVal.str "a")] 0, Event.tick 1,
        Event.send [("cmd", JVal.str "b")] 0])).2.2.1 "1000" ⟨"a", 0, 0, 1000⟩ [("1001", ⟨"b", 1, 1, 1001⟩)] (by decide)).1,
    ((poll_answers_earliest
      (run (init [] 1000) [Event.send [("cmd", JVal.str "a")] 0, Event.tick 1,
        Event.send [("cmd", JVal.str "b")] 0])).2.2.1 "1000" ⟨"a", 0, 0, 1000⟩ [("1001", ⟨"b", 1, 1, 1001⟩)] (by decide)).2
      (reachable_run (Reachable.init [] 1000) _)⟩

/-! ## Writing the log file -/

theorem saveLogs_ok (d : Disk) (logs : List LogEntry) (failure : Option String) :
    ∃ d1, saveLogs d logs failure = Except.ok d1 := by
  cases failure with
  | none => exact ⟨_, rfl⟩
  | some err => exact ⟨_, rfl⟩

theorem updateLog_of_find_none (logs : List LogEntry) (id : String) (st : Status) (r : String)
    (h : logs.find? (fun e => e.id == id) = none) : updateLog logs id st r = logs := by
  induction logs with
  | nil => rfl
  | cons e rest ih =>
    by_cases he : e.id = id
    · simp [List.find?, he] at h
    · have hb : (e.id == id) = false := by simpa using he
      simp only [List.find?, hb] at h
      simp [updateLog, he, ih h]

theorem markEntry_ok (logs : List LogEntry) (d : Disk) (id : String) (st : Status)
    (r : String) (failure : Option String) :
    ∃ d1, markEntry logs d id st r failure = Except.ok (updateLog logs id st r, d1) := by
  unfold markEntry
  cases hf : logs.find? (fun e => e.id == id) with
  | none => exact ⟨d, by simp [updateLog_of_find_none logs id st r hf]⟩
  | some e =>
    obtain ⟨d1, hd1⟩ := saveLogs_ok d (updateLog logs id st r) failure
    exact ⟨d1, by simp [hd1]⟩

theorem sendSaved_eq (s : State) (d : Disk) (body : Body) (dt : Nat) (failure : Option String) :
    ∃ d1, sendSaved s d body dt failure =
      Except.ok ((send s body dt).1, d1, (send s body dt).2) := by
  by_cases hb : badCmd (body.get "cmd") = true
  · exact ⟨d, by simp [sendSaved, send, hb]⟩
  · obtain ⟨c, hc, hne⟩ := badCmd_eq_false.1 (by simpa using hb)
    have hb2 : badCmd (JVal.str c) = false := badCmd_eq_false.2 ⟨c, rfl, hne⟩
    obtain ⟨d1, hd1⟩ := saveLogs_ok d
      (s.logs ++ [⟨generateId s.clock, c, s.clock + dt, Status.pending, none⟩]) failure
    exact ⟨d1, by simp [sendSaved, send, hc, hb2, hd1]⟩

theorem reportSaved_eq (s : State) (d : Disk) (body : Body) (failure : Option String) :
    ∃ d1, reportSaved s d body failure =
      Except.ok ((report s body).1, d1, (report s body).2) := by
  by_cases hb : badReport (body.get "id") (body.get "result") = true
  · exact ⟨d, by simp [reportSaved, report, hb]⟩
  · have hb2 : badReport (body.get "id") (body.get "result") = false := by simpa using hb
    cases hg : mapGetVal s.pendingCommands (body.get "id") with
    | none => exact ⟨d, by simp [reportSaved, report, hb2, hg]⟩
    | some data =>
      obtain ⟨_, r, hr⟩ := badReport_eq_false.1 hb2
      cases hid : body.get "id" with
      | str key =>
        have hb3 : badReport (JVal.str key) (JVal.str r) = false := by
          rw [← hid, ← hr]; exact hb2
        have hg2 : mapGetVal s.pendingCommands (JVal.str key) = some data := by
          rw [← hid]; exact hg
        cases hsub : s.submissions[data.resolve]? with
        | none =>
          exact ⟨d, by simp [reportSaved, report, hid, hr, hb3, hg2, resolvePromise, hsub]⟩
        | some sub =>
          by_cases h0 : sub.settles = []
          · obtain ⟨d1, hd1⟩ := markEntry_ok s.logs d sub.id Status.executed r failure
            exact ⟨d1, by
              simp [reportSaved, report, hid, hr, hb3, hg2, resolvePromise, hsub, h0, hd1]⟩
          · exact ⟨d, by
              simp [reportSaved, report, hid, hr, hb3, hg2, resolvePromise, hsub, h0]⟩
      | _ => rw [hid] at hg; simp [mapGetVal] at hg

theorem fireSaved_eq (s : State) (d : Disk) (h : Nat) (failure : Option String) :
    ∃ d1, fireSaved s d h failure = Except.ok (fire s h, d1) := by
  cases ht : s.timers.find? (fun t => t.handle == h) with
  | none => exact ⟨d, by simp [fireSaved, fire, ht]⟩
  | some t =>
    cases hsub : s.submissions[h]? with
    | none => exact ⟨d, by simp [fireSaved, fire, ht, hsub]⟩
    | some sub =>
      by_cases hd : s.clock < t.deadline
      · exact ⟨d, by simp [fireSaved, fire, ht, hsub, hd]⟩
      · obtain ⟨d1, hd1⟩ := markEntry_ok s.logs d sub.id Status.timeout timeoutMessage failure
        exact ⟨d1, by simp [fireSaved, fire, ht, hsub, hd, hd1]⟩

/-- C13: whatever the write of the log file does, succeed or throw the error
`err`, `saveLogs` returns normally (a failure is caught and logged to the
console), and a submit, a report and a timer callback run to their end with the
same state in memory (log, registry, timers, promises) and the same response:
those of the handlers without the file. -/
theorem write_failure_changes_nothing (s : State) (d : Disk) (body : Body) (dt h : Nat)
    (err : String) :
    (∀ logs, saveLogs d logs none = Except.ok { d with file := logs } ∧
      saveLogs d logs (some err) =
        Except.ok { d with console := d.console ++ ["ログ保存エラー: " ++ err] }) ∧
    (∃ d1 d2,
      sendSaved s d body dt none = Except.ok ((send s body dt).1, d1, (send s body dt).2) ∧
      sendSaved s d body dt (some err) =
        Except.ok ((send s body dt).1, d2, (send s body dt).2)) ∧
    (∃ d1 d2,
      reportSaved s d body none = Except.ok ((report s body).1, d1, (report s body).2) ∧
      reportSaved s d body (some err) =
        Except.ok ((report s body).1, d2, (report s body).2)) ∧
    (∃ d1 d2,
      fireSaved s d h none = Except.ok (fire s h, d1) ∧
      fireSaved s d h (some err) = Except.ok (fire s h, d2)) := by
  obtain ⟨a1, ha1⟩ := sendSaved_eq s d body dt none
  obtain ⟨a2, ha2⟩ := sendSaved_eq s d body dt (some err)
  obtain ⟨b1, hb1⟩ := reportSaved_eq s d body none
  obtain ⟨b2, hb2⟩ := reportSaved_eq s d body (some err)
  obtain ⟨c1, hc1⟩ := fireSaved_eq s d h none
  obtain ⟨c2, hc2⟩ := fireSaved_eq s d h (some err)
  exact ⟨fun logs => ⟨rfl, rfl⟩, ⟨a1, a2, ha1, ha2⟩, ⟨b1, b2, hb1, hb2⟩, ⟨c1, c2, hc1, hc2⟩⟩

/-! ## The log entry of a submit -/

theorem find_of_mem_ids {logs : List LogEntry} {id : String}
    (h : id ∈ logs.map LogEntry.id) :
    ∃ e, logs.find? (fun e => e.id == id) = some e ∧ e.id = id := by
  cases hf : logs.find? (fun e => e.id == id) with
  | none =>
    obtain ⟨x, hx, hxid⟩ := List.mem_map.1 h
    have := List.find?_eq_none.1 hf x hx
    simp [hxid] at this
  | some e => exact ⟨e, rfl, by simpa using List.find?_some hf⟩

theorem submission_id_in_log {s : State} (hI : Inv s) {sub : Submission}
    (h : sub ∈ s.submissions) : sub.id ∈ s.logs.map LogEntry.id := by
  obtain ⟨pre, hpre⟩ := hI.log_ids
  rw [hpre]
  exact List.mem_append_right _ (List.mem_map_of_mem Submission.id h)

/-- C14: in every reachable state the log holds an entry with the id of every
accepted submit, so the lookup `logs.find((e) => e.id === id)` finds an entry
both in the `.then` continuation of a report that resolves a record of the
registry and in the callback of a scheduled timer; the block guarded by
`if (logEntry)` then runs, `saveLogs()` included. -/
theorem log_lookup_finds (s : State) (hs : Reachable s) :
    (∀ sub ∈ s.submissions,
      ∃ e, s.logs.find? (fun e => e.id == sub.id) = some e ∧ e.id = sub.id) ∧
    (∀ key data, mapGet s.pendingCommands key = some data →
      ∃ sub e, s.submissions[data.resolve]? = some sub ∧ sub.id = key ∧
        s.logs.find? (fun e => e.id == sub.id) = some e ∧ e.id = key) ∧
    (∀ t ∈ s.timers, ∃ sub e, s.submissions[t.handle]? = some sub ∧
      s.logs.find? (fun e => e.id == sub.id) = some e ∧ e.id = sub.id) ∧
    (∀ sub ∈ s.submissions, ∀ d st r failure,
      markEntry s.logs d sub.id st r failure =
        (saveLogs d (updateLog s.logs sub.id st r) failure).map
          (fun d1 => (updateLog s.logs sub.id st r, d1))) := by
  have hI := inv_of_reachable hs
  have hall : ∀ sub ∈ s.submissions,
      ∃ e, s.logs.find? (fun e => e.id == sub.id) = some e ∧ e.id = sub.id :=
    fun sub hsub => find_of_mem_ids (submission_id_in_log hI hsub)
  refine ⟨hall, ?_, ?_, ?_⟩
  · intro key data hd
    obtain ⟨_, _, sub, hsub, hsid⟩ := hI.pending_ok key data (mapGet_mem hd)
    obtain ⟨e, he1, he2⟩ := hall sub (List.getElem?_mem hsub)
    exact ⟨sub, e, hsub, hsid, he1, he2.trans hsid⟩
  · intro t ht
    obtain ⟨sub, hsub, _⟩ := hI.timer_ok t ht
    obtain ⟨e, he1, he2⟩ := hall sub (List.getElem?_mem hsub)
    exact ⟨sub, e, hsub, he1, he2⟩
  · intro sub hsub d st r failure
    obtain ⟨e, he, _⟩ := hall sub hsub
    obtain ⟨d1, hd1⟩ := saveLogs_ok d (updateLog s.logs sub.id st r) failure
    simp [markEntry, he, hd1, Except.map]

/-- Witness of C14: after `whoami` was submitted at clock 1000 the lookup of the
id `1000` finds its entry. -/
theorem log_lookup_finds_witness :
    Reachable (next (init [] 1000) (Event.send [("cmd", JVal.str "whoami")] 0)) ∧
    ∀ sub ∈ (next (init [] 1000) (Event.send [("cmd", JVal.str "whoami")] 0)).submissions,
      ∃ e, (next (init [] 1000) (Event.send [("cmd", JVal.str "whoami")] 0)).logs.find?
        (fun e => e.id == sub.id) = some e ∧ e.id = sub.id :=
  ⟨Reachable.step _ (Reachable.init [] 1000),
    (log_lookup_finds (next (init [] 1000) (Event.send [("cmd", JVal.str "whoami")] 0))
      (Reachable.step _ (Reachable.init [] 1000))).1⟩

/-! ## The registry and the pending entries of the log -/

theorem pendingIds_subset {logs : List LogEntry} {id : String} (h : id ∈ pendingIds logs) :
    id ∈ logs.map LogEntry.id := by
  obtain ⟨e, he, hid⟩ := List.mem_map.1 h
  exact List.mem_map.2 ⟨e, (List.mem_filter.1 he).1, hid⟩

theorem mem_pendingIds {logs : List LogEntry} {id : String} :
    id ∈ pendingIds logs ↔ ∃ e ∈ logs, e.id = id ∧ e.status = Status.pending := by
  simp [pendingIds, and_assoc, and_comm]

theorem pendingIds_cons (e : LogEntry) (rest : List LogEntry) :
    pendingIds (e :: rest) =
      if e.status = Status.pending then e.id :: pendingIds rest else pendingIds rest := by
  by_cases h : e.status = Status.pending <;> simp [pendingIds, List.filter, h]

theorem pendingIds_append_pending (logs : List LogEntry) (e : LogEntry)
    (h : e.status = Status.pending) : pendingIds (logs ++ [e]) = pendingIds logs ++ [e.id] := by
  simp [pendingIds, List.filter_append, List.filter, h]

theorem pendingIds_updateLog (st : Status) (r : String) (hst : st ≠ Status.pending)
    (id : String) : ∀ l : List LogEntry, (l.map LogEntry.id).Nodup →
    pendingIds (updateLog l id st r) = (pendingIds l).erase id := by
  intro l
  induction l with
  | nil => intro _; rfl
  | cons e rest ih =>
    intro hnd
    have hnd1 : (e.id :: rest.map LogEntry.id).Nodup := hnd
    obtain ⟨hnotin, hrest⟩ := List.nodup_cons.1 hnd1
    by_cases he : e.id = id
    · have hout : id ∉ pendingIds rest := fun h => hnotin (he ▸ pendingIds_subset h)
      simp only [updateLog, he, if_true]
      rw [pendingIds_cons, pendingIds_cons, if_neg (by simpa using hst)]
      by_cases hp : e.status = Status.pending
      · rw [if_pos hp, he, List.erase_cons_head]
      · rw [if_neg hp, List.erase_of_not_mem hout]
    · simp only [updateLog, he, if_false]
      rw [pendingIds_cons, pendingIds_cons, ih hrest]
      by_cases hp : e.status = Status.pending
      · rw [if_pos hp, if_pos hp, List.erase_cons_tail (by simpa using he)]
      · rw [if_neg hp, if_neg hp]

theorem run_append (s : State) (es : List Event) (e : Event) :
    run s (es ++ [e]) = next (run s es) e := by
  induction es generalizing s with
  | nil => rfl
  | cons a es ih => exact ih (next s a)

/-- The ids of the log and those of the accepted submits stay the same list. -/
theorem next_ids_sync {s : State} (hI : Inv s)
    (h : s.logs.map LogEntry.id = s.submissions.map Submission.id) (e : Event) :
    (next s e).logs.map LogEntry.id = (next s e).submissions.map Submission.id := by
  cases e with
  | send body dt =>
    by_cases hb : badCmd (body.get "cmd") = true
    · simpa [next, send_reject s body dt hb] using h
    · obtain ⟨c, hc, hne⟩ := badCmd_eq_false.1 (by simpa using hb)
      simp [next, send_accept s body dt hc hne, h]
  | poll => rw [show next s Event.poll = s from poll_state s]; exact h
  | report body =>
    rcases report_cases s body with ⟨resp, hrep, _⟩ | ⟨key, r, data, hid, hr, hk, hd⟩
    · simpa [next, hrep] using h
    · obtain ⟨_, _, sub, hsub, _⟩ := hI.pending_ok key data (mapGet_mem hd)
      simp only [next, report_found s body hid hr hk hd hsub]
      rw [map_set_same Submission.id s.submissions data.resolve sub
        ⟨sub.id, sub.settles ++ [Settle.fulfil r]⟩ hsub rfl, ← h]
      by_cases h0 : sub.settles = []
      · simp [h0, updateLog_ids]
      · simp [h0]
  | getLogs => exact h
  | fire hh =>
    rcases fire_cases s hh with e | ⟨t, sub, _, _, hd, hsub, hfind⟩
    · simpa [next, e] using h
    · simp only [next, fire_fired s hh hfind hsub hd]
      rw [map_set_same Submission.id s.submissions hh sub
        ⟨sub.id, sub.settles ++ [Settle.reject timeoutMessage]⟩ hsub rfl, ← h, updateLog_ids]
  | tick d => exact h

theorem run_init_ids (c : Nat) (es : List Event) :
    (run (init [] c) es).logs.map LogEntry.id =
      (run (init [] c) es).submissions.map Submission.id := by
  induction es using List.reverseRecOn with
  | nil => rfl
  | append_singleton es e ih =>
    rw [run_append]
    exact next_ids_sync (inv_run (inv_init [] c) es) ih e

/-- One event keeps the keys of the registry equal to the ids of the pending
entries of the log, as long as the ids of the log stay pairwise distinct. -/
theorem registry_next {s : State} (hI : Inv s)
    (hK : mapKeys s.pendingCommands = pendingIds s.logs) (e : Event)
    (hnd : ((next s e).logs.map LogEntry.id).Nodup) :
    mapKeys (next s e).pendingCommands = pendingIds (next s e).logs := by
  cases e with
  | send body dt =>
    by_cases hb : badCmd (body.get "cmd") = true
    · simpa [next, send_reject s body dt hb] using hK
    · obtain ⟨c, hc, hne⟩ := badCmd_eq_false.1 (by simpa using hb)
      simp only [next, send_accept s body dt hc hne] at hnd ⊢
      simp only [List.map_append, List.map_cons, List.map_nil] at hnd
      have hnew : generateId s.clock ∉ mapKeys s.pendingCommands := by
        rw [hK]
        intro hin
        exact (List.nodup_append.1 hnd).2.2 (pendingIds_subset hin) (List.mem_singleton_self _)
      rw [mapKeys_mapSet_eq, if_neg hnew, hK, pendingIds_append_pending _ _ rfl]
  | poll => rw [show next s Event.poll = s from poll_state s]; exact hK
  | report body =>
    rcases report_cases s body with ⟨resp, hrep, _⟩ | ⟨key, r, data, hid, hr, hk, hd⟩
    · simpa [next, hrep] using hK
    · obtain ⟨hrt, ⟨t, ht, hth⟩, sub, hsub, hsid⟩ := hI.pending_ok key data (mapGet_mem hd)
      obtain ⟨sub1, hs1, hs2, _⟩ := hI.timer_ok t ht
      have hsame : sub1 = sub := by
        rw [hth, ← hrt, hsub] at hs1
        exact (Option.some.inj hs1).symm
      subst hsame
      simp only [next, report_found s body hid hr hk hd hsub, hs2, if_true] at hnd ⊢
      rw [updateLog_ids] at hnd
      rw [mapKeys_mapDelete_eq, hK, hsid,
        pendingIds_updateLog Status.executed r (by decide) key s.logs hnd]
  | getLogs => exact hK
  | fire hh =>
    rcases fire_cases s hh with e | ⟨t, sub, _, _, hd, hsub, hfind⟩
    · simpa [next, e] using hK
    · simp only [next, fire_fired s hh hfind hsub hd] at hnd ⊢
      rw [updateLog_ids] at hnd
      rw [mapKeys_mapDelete_eq, hK,
        pendingIds_updateLog Status.timeout timeoutMessage (by decide) sub.id s.logs hnd]
  | tick d => exact hK

theorem registry_run (c : Nat) (es : List Event) :
    ((run (init [] c) es).logs.map LogEntry.id).Nodup →
    mapKeys (run (init [] c) es).pendingCommands = pendingIds (run (init [] c) es).logs := by
  induction es using List.reverseRecOn with
  | nil => intro _; rfl
  | append_singleton es e ih =>
    intro hnd
    rw [run_append] at hnd ⊢
    have hnd0 : ((run (init [] c) es).logs.map LogEntry.id).Nodup := by
      rcases next_log_ids (run (init [] c) es) e with h | ⟨x, h⟩
      · rw [h] at hnd; exact hnd
      · rw [h] at hnd; exact (List.nodup_append.1 hnd).1
    exact registry_next (inv_run (inv_init [] c) es) (ih hnd0) e hnd

/-- C15: from an empty log and an empty registry, in every state reached by a run
whose generated ids are pairwise distinct, the keys of the registry are exactly
the ids of the log entries with status `pending`, in the same order: the id of
an entry that is `executed` or `timeout` is not in the registry, and an entry
whose id is not in the registry is not `pending`. -/
theorem registry_is_pending_log (c : Nat) (es : List Event)
    (hnd : ((run (init [] c) es).submissions.map Submission.id).Nodup) :
    mapKeys (run (init [] c) es).pendingCommands = pendingIds (run (init [] c) es).logs ∧
    (∀ id, id ∈ mapKeys (run (init [] c) es).pendingCommands ↔
      ∃ e ∈ (run (init [] c) es).logs, e.id = id ∧ e.status = Status.pending) ∧
    (∀ e ∈ (run (init [] c) es).logs, e.status ≠ Status.pending →
      mapGet (run (init [] c) es).pendingCommands e.id = none) ∧
    (∀ e ∈ (run (init [] c) es).logs,
      mapGet (run (init [] c) es).pendingCommands e.id = none → e.status ≠ Status.pending) := by
  have hids := run_init_ids c es
  have hnd2 : ((run (init [] c) es).logs.map LogEntry.id).Nodup := by rw [hids]; exact hnd
  have hK := registry_run c es hnd2
  have hiff : ∀ id, id ∈ mapKeys (run (init [] c) es).pendingCommands ↔
      ∃ e ∈ (run (init [] c) es).logs, e.id = id ∧ e.status = Status.pending := by
    intro id; rw [hK]; exact mem_pendingIds
  refine ⟨hK, hiff, ?_, ?_⟩
  · intro e he hst
    rw [mapGet_eq_none]
    intro hin
    obtain ⟨e2, he2, hid2, hst2⟩ := (hiff e.id).1 hin
    have : e2 = e := by
      have hinj := List.inj_on_of_nodup_map hnd2
      exact hinj he2 he hid2
    exact hst (this ▸ hst2)
  · intro e he hnone hst
    exact (mapGet_eq_none.1 hnone) ((hiff e.id).2 ⟨e, he, rfl, hst⟩)

/-- Witness of C15: `whoami` submitted at clock 1000 and reported with result
`root`: the registry is empty and the only log entry is `executed`. -/
theorem registry_is_pending_log_witness :
    ((run (init [] 1000) [Event.send [("cmd", JVal.str "whoami")] 0,
      Event.report [("id", JVal.str "1000"), ("result", JVal.str "root")]]).submissions.map
        Submission.id).Nodup ∧
    mapKeys (run (init [] 1000) [Event.send [("cmd", JVal.str "whoami")] 0,
      Event.report [("id", JVal.str "1000"), ("result", JVal.str "root")]]).pendingCommands =
      pendingIds (run (init [] 1000) [Event.send [("cmd", JVal.str "whoami")] 0,
        Event.report [("id", JVal.str "1000"), ("result", JVal.str "root")]]).logs :=
  ⟨by decide,
    (registry_is_pending_log 1000 [Event.send [("cmd", JVal.str "whoami")] 0,
      Event.report [("id", JVal.str "1000"), ("result", JVal.str "root")]] (by decide)).1⟩

/-! ## Runs in which the wall clock is adjusted -/

theorem inv_nextStep {s : State} (hI : Inv s) (st : Step) : Inv (nextStep s st) := by
  cases st with
  | event e => exact inv_next hI e
  | setClock now =>
    exact ⟨hI.keys_nodup, hI.handles_nodup, hI.pending_ok, hI.timer_ok, hI.settled_once,
      hI.log_ids⟩

theorem inv_of_reachableAnyClock {s : State} (h : ReachableAnyClock s) : Inv s := by
  induction h with
  | init logs clock => exact inv_init logs clock
  | step st _ ih => exact inv_nextStep ih st

theorem reachableAnyClock_of_reachable {s : State} (h : Reachable s) :
    ReachableAnyClock s := by
  induction h with
  | init logs clock => exact ReachableAnyClock.init logs clock
  | step e _ ih => exact ReachableAnyClock.step (Step.event e) ih

theorem reachableAnyClock_runSteps {s : State} (h : ReachableAnyClock s) (sts : List Step) :
    ReachableAnyClock (runSteps s sts) := by
  induction sts generalizing s with
  | nil => exact h
  | cons st sts ih => exact ih (ReachableAnyClock.step st h)

theorem set_keeps {l : List Submission} {h : Nat} {a b : Submission}
    (ha : l[h]? = some a) (hb : b.id = a.id) {j : Nat} {y0 : Submission}
    (hj : l[j]? = some y0) : ∃ y, (l.set h b)[j]? = some y ∧ y.id = y0.id := by
  by_cases hh : h = j
  · subst hh
    have : y0 = a := Option.some.inj (hj.symm.trans ha)
    exact ⟨b, List.getElem?_set_self (lt_of_getElem?_eq_some ha), by rw [hb, this]⟩
  · exact ⟨y0, by rw [List.getElem?_set_ne hh]; exact hj, rfl⟩

/-- A submit keeps its place, its id and the calls already made on its promise. -/
theorem next_submission_keeps {s : State} (hI : Inv s) (e : Event) {i : Nat}
    {sub : Submission} (h : s.submissions[i]? = some sub) :
    ∃ sub2, (next s e).submissions[i]? = some sub2 ∧ sub2.id = sub.id ∧
      ∀ x ∈ sub.settles, x ∈ sub2.settles := by
  have hsame : ∃ sub2, s.submissions[i]? = some sub2 ∧ sub2.id = sub.id ∧
      ∀ x ∈ sub.settles, x ∈ sub2.settles := ⟨sub, h, rfl, fun _ hx => hx⟩
  cases e with
  | send body dt =>
    by_cases hb : badCmd (body.get "cmd") = true
    · simpa [next, send_reject s body dt hb] using hsame
    · obtain ⟨c, hc, hne⟩ := badCmd_eq_false.1 (by simpa using hb)
      simp only [next, send_accept s body dt hc hne]
      rw [List.getElem?_append_left (lt_of_getElem?_eq_some h)]
      exact hsame
  | poll => rw [show next s Event.poll = s from poll_state s]; exact hsame
  | report body =>
    rcases report_cases s body with ⟨resp, hrep, _⟩ | ⟨key, r, data, hid, hr, hk, hd⟩
    · simpa [next, hrep] using hsame
    · obtain ⟨_, _, sub0, hsub0, _⟩ := hI.pending_ok key data (mapGet_mem hd)
      simp only [next, report_found s body hid hr hk hd hsub0]
      by_cases hh : data.resolve = i
      · subst hh
        have : sub = sub0 := Option.some.inj (h.symm.trans hsub0)
        subst this
        exact ⟨_, List.getElem?_set_self (lt_of_getElem?_eq_some h), rfl,
          fun x hx => List.mem_append_left _ hx⟩
      · rw [List.getElem?_set_ne hh]; exact hsame
  | getLogs => exact hsame
  | fire h0 =>
    rcases fire_cases s h0 with e | ⟨t, sub0, _, _, hd, hsub0, hfind⟩
    · simpa [next, e] using hsame
    · simp only [next, fire_fired s h0 hfind hsub0 hd]
      by_cases hh : h0 = i
      · subst hh
        have : sub = sub0 := Option.some.inj (h.symm.trans hsub0)
        subst this
        exact ⟨_, List.getElem?_set_self (lt_of_getElem?_eq_some h), rfl,
          fun x hx => List.mem_append_left _ hx⟩
      · rw [List.getElem?_set_ne hh]; exact hsame
  | tick d => exact hsame

theorem runSteps_submission_keeps (sts : List Step) : ∀ {s : State}, Inv s →
    ∀ {i : Nat} {sub : Submission}, s.submissions[i]? = some sub →
    ∃ sub2, (runSteps s sts).submissions[i]? = some sub2 ∧ sub2.id = sub.id ∧
      ∀ x ∈ sub.settles, x ∈ sub2.settles := by
  induction sts with
  | nil => intro s _ i sub h; exact ⟨sub, h, rfl, fun _ hx => hx⟩
  | cons st sts ih =>
    intro s hI i sub h
    have hstep : ∃ sub1, (nextStep s st).submissions[i]? = some sub1 ∧ sub1.id = sub.id ∧
        ∀ x ∈ sub.settles, x ∈ sub1.settles := by
      cases st with
      | event e => exact next_submission_keeps hI e h
      | setClock now => exact ⟨sub, h, rfl, fun _ hx => hx⟩
    obtain ⟨sub1, h1, h2, h3⟩ := hstep
    obtain ⟨sub2, h4, h5, h6⟩ := ih (inv_nextStep hI st) h1
    exact ⟨sub2, h4, h5.trans h2, fun x hx => h6 x (h3 x hx)⟩

theorem timedOutGone_init (logs : List LogEntry) (clock : Nat) :
    TimedOutGone (init logs clock) := by
  intro i sub h _
  simp [init] at h

theorem timedOutGone_next {s : State} (hI : Inv s) (hT : TimedOutGone s) (e : Event) :
    TimedOutGone (next s e) := by
  cases e with
  | send body dt =>
    by_cases hb : badCmd (body.get "cmd") = true
    · simpa [next, send_reject s body dt hb] using hT
    · obtain ⟨c, hc, hne⟩ := badCmd_eq_false.1 (by simpa using hb)
      simp only [next, send_accept s body dt hc hne]
      intro i sub h hrej
      have hnew : (s.submissions ++ [(⟨generateId s.clock, []⟩ : Submission)])[
          s.submissions.length]? = some ⟨generateId s.clock, []⟩ :=
        List.getElem?_concat_length _ _
      have hlt := lt_of_getElem?_eq_some h
      simp only [List.length_append, List.length_singleton] at hlt
      by_cases hi : i < s.submissions.length
      · have h0 : s.submissions[i]? = some sub := by
          rw [List.getElem?_append_left hi] at h; exact h
        rcases hT i sub h0 hrej with hnone | ⟨j, sub2, hij, hj, hid⟩
        · by_cases hsame : sub.id = generateId s.clock
          · exact Or.inr ⟨s.submissions.length, _, hi, hnew, hsame.symm⟩
          · left
            show mapGet (mapSet s.pendingCommands (generateId s.clock) _) sub.id = none
            rw [mapGet_mapSet_ne hsame]; exact hnone
        · refine Or.inr ⟨j, sub2, hij, ?_, hid⟩
          show (s.submissions ++ _)[j]? = some sub2
          rw [List.getElem?_append_left (lt_of_getElem?_eq_some hj)]; exact hj
      · have hi2 : i = s.submissions.length := by omega
        rw [hi2, hnew] at h
        obtain ⟨m, hm⟩ := hrej
        rw [← Option.some.inj h] at hm
        simp at hm
  | poll => rw [show next s Event.poll = s from poll_state s]; exact hT
  | report body =>
    rcases report_cases s body with ⟨resp, hrep, _⟩ | ⟨key, r, data, hid, hr, hk, hd⟩
    · simpa [next, hrep] using hT
    · obtain ⟨hrt, ⟨t, ht, hth⟩, sub0, hsub0, hsid⟩ :=
        hI.pending_ok key data (mapGet_mem hd)
      obtain ⟨sub1, hs1, hs2, _⟩ := hI.timer_ok t ht
      have hsame : sub1 = sub0 := by
        rw [hth, ← hrt, hsub0] at hs1
        exact (Option.some.inj hs1).symm
      subst hsame
      simp only [next, report_found s body hid hr hk hd hsub0]
      intro i sub h hrej
      by_cases hh : data.resolve = i
      · subst hh
        rw [List.getElem?_set_self (lt_of_getElem?_eq_some hsub0)] at h
        obtain ⟨m, hm⟩ := hrej
        rw [← Option.some.inj h] at hm
        simp [hs2] at hm
      · have h0 : s.submissions[i]? = some sub := by
          rw [List.getElem?_set_ne hh] at h; exact h
        rcases hT i sub h0 hrej with hnone | ⟨j, sub2, hij, hj, hid2⟩
        · exact Or.inl (mapGet_mapDelete_of_none hnone)
        · obtain ⟨y, hy, hyid⟩ := set_keeps
            (b := ⟨sub1.id, sub1.settles ++ [Settle.fulfil r]⟩) hsub0 rfl hj
          exact Or.inr ⟨j, y, hij, hy, hyid.trans hid2⟩
  | getLogs => exact hT
  | fire h0 =>
    rcases fire_cases s h0 with e | ⟨t, sub0, _, _, hd, hsub0, hfind⟩
    · simpa [next, e] using hT
    · simp only [next, fire_fired s h0 hfind hsub0 hd]
      intro i sub h hrej
      by_cases hh : h0 = i
      · subst hh
        rw [List.getElem?_set_self (lt_of_getElem?_eq_some hsub0)] at h
        left
        rw [← Option.some.inj h]
        exact mapGet_mapDelete_self hI.keys_nodup
      · have h1 : s.submissions[i]? = some sub := by
          rw [List.getElem?_set_ne hh] at h; exact h
        rcases hT i sub h1 hrej with hnone | ⟨j, sub2, hij, hj, hid2⟩
        · exact Or.inl (mapGet_mapDelete_of_none hnone)
        · obtain ⟨y, hy, hyid⟩ := set_keeps
            (b := ⟨sub0.id, sub0.settles ++ [Settle.reject timeoutMessage]⟩) hsub0 rfl hj
          exact Or.inr ⟨j, y, hij, hy, hyid.trans hid2⟩
  | tick d => exact hT

theorem timedOutGone_of_reachableAnyClock {s : State} (h : ReachableAnyClock s) :
    TimedOutGone s := by
  induction h with
  | init logs clock => exact timedOutGone_init logs clock
  | @step s st hs ih =>
    cases st with
    | event e => exact timedOutGone_next (inv_of_reachableAnyClock hs) ih e
    | setClock now => exact ih

theorem timer_stays_gone_steps (h : Nat) : ∀ (sts : List Step) (s : State),
    h < s.submissions.length → (∀ t ∈ s.timers, t.handle ≠ h) →
    ∀ t ∈ (runSteps s sts).timers, t.handle ≠ h := by
  intro sts
  induction sts with
  | nil => intro s _ h2; exact h2
  | cons st sts ih =>
    intro s h1 h2
    cases st with
    | event e =>
      refine ih (next s e) (Nat.lt_of_lt_of_le h1 (next_submissions_length s e)) ?_
      intro t ht
      rcases next_timers_mem s e t ht with hm | hm
      · exact h2 t hm
      · omega
    | setClock now => exact ih _ h1 h2

/-! ## C1 and C6 when the wall clock is adjusted -/

/-- The part of C1 that holds whatever the wall clock does: each accepted submit
has had at most one call on its promise, so it is never both fulfilled by a
report and failed by its timeout; a report that succeeds resolves a record whose
timer is no longer scheduled in any later state, where running it does nothing;
and once a timer has run, its id is out of the registry and a report for that
id (with a string result) is answered 404, leaving the state as it was, in every
later state in which no later submit has been given that id. -/
theorem one_outcome_per_submit (s : State) (hs : ReachableAnyClock s) :
    (∀ sub ∈ s.submissions, sub.settles.length ≤ 1 ∧
      ∀ r m, ¬ (Settle.fulfil r ∈ sub.settles ∧ Settle.reject m ∈ sub.settles)) ∧
    (∀ body, (report s body).2.status = 200 →
      ∃ data, mapGetVal s.pendingCommands (body.get "id") = some data ∧
        ∀ sts, (∀ t ∈ (runSteps (report s body).1 sts).timers, t.handle ≠ data.timeout) ∧
          fire (runSteps (report s body).1 sts) data.timeout =
            runSteps (report s body).1 sts) ∧
    (∀ t ∈ s.timers, t.deadline ≤ s.clock → ∀ sub, s.submissions[t.handle]? = some sub →
      mapGet (fire s t.handle).pendingCommands sub.id = none ∧
      (∀ x ∈ (fire s t.handle).timers, x.handle ≠ t.handle) ∧
      ∀ sts body r, body.get "id" = JVal.str sub.id → body.get "result" = JVal.str r →
        (∀ (j : Nat) (sub2 : Submission), t.handle < j →
          (runSteps (fire s t.handle) sts).submissions[j]? = some sub2 → sub2.id ≠ sub.id) →
        report (runSteps (fire s t.handle) sts) body =
          (runSteps (fire s t.handle) sts,
            ⟨404, Payload.error "Command ID not found or timed out"⟩)) := by
  have hI := inv_of_reachableAnyClock hs
  refine ⟨?_, ?_, ?_⟩
  · intro sub hsub
    have hlen := hI.settled_once sub hsub
    refine ⟨hlen, ?_⟩
    rintro r m ⟨h1, h2⟩
    match hl : sub.settles, hlen, h1, h2 with
    | [], _, h1, _ => simp at h1
    | [x], _, h1, h2 =>
      simp only [List.mem_singleton] at h1 h2
      rw [← h1] at h2
      exact absurd h2 (by simp)
    | _ :: _ :: _, hlen, _, _ => simp at hlen
  · intro body h200
    rcases report_cases s body with ⟨resp, h, hst⟩ | ⟨key, r, data, hid, hr, hk, hd⟩
    · rw [h] at h200
      rcases hst with h4 | h4 <;> rw [h4] at h200 <;> exact absurd h200 (by decide)
    · refine ⟨data, by rw [hid]; exact hd, ?_⟩
      obtain ⟨hrt, _, sub, hsub, _⟩ := hI.pending_ok key data (mapGet_mem hd)
      obtain ⟨_, _, htm, _, hlen⟩ := report_found_state s body hid hr hk hd
      have hgone : ∀ sts, ∀ t ∈ (runSteps (report s body).1 sts).timers,
          t.handle ≠ data.timeout := by
        intro sts
        refine timer_stays_gone_steps data.timeout sts _ ?_ ?_
        · rw [hlen, ← hrt]; exact lt_of_getElem?_eq_some hsub
        · intro t ht
          rw [htm] at ht
          simpa using (List.mem_filter.1 ht).2
      exact fun sts => ⟨hgone sts, fire_of_no_timer _ _ (hgone sts)⟩
  · intro t ht hdl sub hsub
    obtain ⟨sub1, hs1, hs2, c, hc1, _⟩ := hI.timer_ok t ht
    have hsame : sub1 = sub := Option.some.inj (hs1.symm.trans hsub)
    subst hsame
    have hfire := fire_fired s t.handle (find_timer hI.handles_nodup ht) hsub hdl
    have hnone : mapGet (fire s t.handle).pendingCommands sub1.id = none := by
      rw [hfire]; exact mapGet_mapDelete_self hI.keys_nodup
    refine ⟨hnone, ?_, ?_⟩
    · intro x hx
      rw [hfire] at hx
      simpa using (List.mem_filter.1 hx).2
    · intro sts body r hid hr hnew
      have hreach1 : ReachableAnyClock (fire s t.handle) :=
        ReachableAnyClock.step (Step.event (Event.fire t.handle)) hs
      have hfired : (fire s t.handle).submissions[t.handle]? =
          some ⟨sub1.id, sub1.settles ++ [Settle.reject timeoutMessage]⟩ := by
        rw [hfire]
        exact List.getElem?_set_self (lt_of_getElem?_eq_some hsub)
      obtain ⟨sub2, h2, h2id, h2set⟩ :=
        runSteps_submission_keeps sts (inv_of_reachableAnyClock hreach1) hfired
      have hrej : ∃ m, Settle.reject m ∈ sub2.settles :=
        ⟨timeoutMessage, h2set _ (List.mem_append_right _ (List.mem_singleton_self _))⟩
      have hT := timedOutGone_of_reachableAnyClock (reachableAnyClock_runSteps hreach1 sts)
      have hid2 : sub2.id = sub1.id := h2id
      refine report_absent _ body hid hr (by rw [hc1]; exact generateId_ne_empty c) ?_
      rcases hT t.handle sub2 h2 hrej with hn | ⟨j, sub3, hj, hj2, hj3⟩
      · rw [← hid2]; exact hn
      · exact absurd (hj3.trans hid2) (hnew j sub3 hj hj2)

/-- Witness of the part of C1 that holds: the state after `whoami` was submitted
at clock 1000 and reported with result `root`. -/
theorem one_outcome_per_submit_witness :
    ReachableAnyClock (runSteps (init [] 1000)
      [Step.event (Event.send [("cmd", JVal.str "whoami")] 0),
        Step.event (Event.report [("id", JVal.str "1000"), ("result", JVal.str "root")])]) ∧
    ∀ sub ∈ (runSteps (init [] 1000)
      [Step.event (Event.send [("cmd", JVal.str "whoami")] 0),
        Step.event (Event.report [("id", JVal.str "1000"),
          ("result", JVal.str "root")])]).submissions,
      sub.settles.length ≤ 1 ∧
        ∀ r m, ¬ (Settle.fulfil r ∈ sub.settles ∧ Settle.reject m ∈ sub.settles) :=
  ⟨reachableAnyClock_runSteps (ReachableAnyClock.init [] 1000) _,
    (one_outcome_per_submit _
      (reachableAnyClock_runSteps (ReachableAnyClock.init [] 1000) _)).1⟩

/-- C1 fails on the code: `ping`, submitted while the clock reads 1000, times out
(its timer runs, its id `1000` leaves the registry, its promise is rejected);
the wall clock is then set back to 1000 and `b` is submitted, which gets the id
`1000` again; the report for `1000` that follows is answered 200, not 404,
fulfils the promise of `b`, and turns the log entry of `ping` from `timeout`
into `executed`. -/
theorem timed_out_id_registered_again :
    ReachableAnyClock (runSteps (init [] 1000)
      [Step.event (Event.send [("cmd", JVal.str "ping")] 0), Step.event (Event.tick 15000),
        Step.event (Event.fire 0), Step.setClock 1000,
        Step.event (Event.send [("cmd", JVal.str "b")] 0)]) ∧
    (runSteps (init [] 1000)
      [Step.event (Event.send [("cmd", JVal.str "ping")] 0), Step.event (Event.tick 15000),
        Step.event (Event.fire 0)]).submissions =
        [⟨"1000", [Settle.reject "Timeout: no response from client"]⟩] ∧
    mapGet (runSteps (init [] 1000)
      [Step.event (Event.send [("cmd", JVal.str "ping")] 0), Step.event (Event.tick 15000),
        Step.event (Event.fire 0)]).pendingCommands "1000" = none ∧
    (report (runSteps (init [] 1000)
      [Step.event (Event.send [("cmd", JVal.str "ping")] 0), Step.event (Event.tick 15000),
        Step.event (Event.fire 0), Step.setClock 1000,
        Step.event (Event.send [("cmd", JVal.str "b")] 0)])
      [("id", JVal.str "1000"), ("result", JVal.str "late")]).2 =
        ⟨200, Payload.message "Result received"⟩ ∧
    (report (runSteps (init [] 1000)
      [Step.event (Event.send [("cmd", JVal.str "ping")] 0), Step.event (Event.tick 15000),
        Step.event (Event.fire 0), Step.setClock 1000,
        Step.event (Event.send [("cmd", JVal.str "b")] 0)])
      [("id", JVal.str "1000"), ("result", JVal.str "late")]).1.submissions =
        [⟨"1000", [Settle.reject "Timeout: no response from client"]⟩,
          ⟨"1000", [Settle.fulfil "late"]⟩] ∧
    (report (runSteps (init [] 1000)
      [Step.event (Event.send [("cmd", JVal.str "ping")] 0), Step.event (Event.tick 15000),
        Step.event (Event.fire 0), Step.setClock 1000,
        Step.event (Event.send [("cmd", JVal.str "b")] 0)])
      [("id", JVal.str "1000"), ("result", JVal.str "late")]).1.logs =
        [⟨"1000", "ping", 1000, Status.executed, some "late"⟩,
          ⟨"1000", "b", 1000, Status.pending, none⟩] :=
  ⟨reachableAnyClock_runSteps (ReachableAnyClock.init [] 1000) _,
    by decide, by decide, by decide, by decide, by decide⟩

/-- C6, amended: in every state the server can reach, whatever the wall clock
does, a report with a string result whose id is truthy (so not the empty string)
and either was never the id of an accepted submit, or is the id of a submit
whose timer has run and that no later submit has been given, is answered 404
and leaves the whole state, registry and log included, as it was. -/
theorem report_unknown_id (s : State) (hs : ReachableAnyClock s) (body : Body) (r : String)
    (hr : body.get "result" = JVal.str r) (hid : (body.get "id").truthy = true)
    (hunk : (∀ sub ∈ s.submissions, body.get "id" ≠ JVal.str sub.id) ∨
      (∃ (i : Nat) (sub : Submission), s.submissions[i]? = some sub ∧
        body.get "id" = JVal.str sub.id ∧ (∃ m, Settle.reject m ∈ sub.settles) ∧
        ∀ (j : Nat) (sub2 : Submission), i < j → s.submissions[j]? = some sub2 →
          sub2.id ≠ sub.id)) :
    report s body = (s, ⟨404, Payload.error "Command ID not found or timed out"⟩) ∧
    (report s body).1.pendingCommands = s.pendingCommands ∧
    (report s body).1.logs = s.logs := by
  have hI := inv_of_reachableAnyClock hs
  have hrep : report s body =
      (s, ⟨404, Payload.error "Command ID not found or timed out"⟩) := by
    refine report_notFound s body (badReport_eq_false.2 ⟨hid, r, hr⟩) ?_
    rcases hunk with hnever | ⟨i, sub, hsub, hsid, hrej, hlast⟩
    · cases hget : mapGetVal s.pendingCommands (body.get "id") with
      | none => rfl
      | some d =>
        cases hv : body.get "id" with
        | str k =>
          rw [hv] at hget
          obtain ⟨_, _, sub, hsub, hsid⟩ := hI.pending_ok k d (mapGet_mem hget)
          exact absurd (by rw [hv, hsid]) (hnever sub (List.getElem?_mem hsub))
        | _ => rw [hv] at hget; simp [mapGetVal] at hget
    · rw [hsid]
      rcases timedOutGone_of_reachableAnyClock hs i sub hsub hrej with hn | ⟨j, sub2, hj, hj2, hj3⟩
      · exact hn
      · exact absurd hj3 (hlast j sub2 hj hj2)
  exact ⟨hrep, by rw [hrep], by rw [hrep]⟩

/-- Witness of C6: after `ping`, submitted at clock 1000, has timed out, a report
for its id `1000` is answered 404, also when the wall clock has been set back. -/
theorem report_unknown_id_witness :
    (ReachableAnyClock (runSteps (init [] 1000)
        [Step.event (Event.send [("cmd", JVal.str "ping")] 0), Step.event (Event.tick 15000),
          Step.event (Event.fire 0), Step.setClock 1000]) ∧
      (runSteps (init [] 1000)
        [Step.event (Event.send [("cmd", JVal.str "ping")] 0), Step.event (Event.tick 15000),
          Step.event (Event.fire 0), Step.setClock 1000]).submissions =
        [⟨"1000", [Settle.reject "Timeout: no response from client"]⟩]) ∧
    report (runSteps (init [] 1000)
        [Step.event (Event.send [("cmd", JVal.str "ping")] 0), Step.event (Event.tick 15000),
          Step.event (Event.fire 0), Step.setClock 1000])
      [("id", JVal.str "1000"), ("result", JVal.str "late")] =
      (runSteps (init [] 1000)
        [Step.event (Event.send [("cmd", JVal.str "ping")] 0), Step.event (Event.tick 15000),
          Step.event (Event.fire 0), Step.setClock 1000],
        ⟨404, Payload.error "Command ID not found or timed out"⟩) :=
  ⟨⟨reachableAnyClock_runSteps (ReachableAnyClock.init [] 1000) _, by decide⟩,
    (report_unknown_id _ (reachableAnyClock_runSteps (ReachableAnyClock.init [] 1000) _)
      [("id", JVal.str "1000"), ("result", JVal.str "late")] "late" rfl rfl
      (Or.inr ⟨0, ⟨"1000", [Settle.reject "Timeout: no response from client"]⟩, by decide, rfl,
        ⟨"Timeout: no response from client", by decide⟩,
        fun j sub2 hj h => by
          have hlen := lt_of_getElem?_eq_some h
          have h1 : (runSteps (init [] 1000)
            [Step.event (Event.send [("cmd", JVal.str "ping")] 0),
              Step.event (Event.tick 15000), Step.event (Event.fire 0),
              Step.setClock 1000]).submissions.length = 1 := by decide
          omega⟩)).1⟩

/-- The timed-out part of C6 fails, as stated, when an id is given again: `ping`,
submitted while the clock reads 1000, has timed out; after the wall clock was
set back to 1000 and `b` submitted, a report for the id `1000` of `ping` is
answered 200 and takes the id out of the registry. -/
theorem report_reissued_id_not_404 :
    ReachableAnyClock (runSteps (init [] 1000)
      [Step.event (Event.send [("cmd", JVal.str "ping")] 0), Step.event (Event.tick 15000),
        Step.event (Event.fire 0), Step.setClock 1000,
        Step.event (Event.send [("cmd", JVal.str "b")] 0)]) ∧
    (runSteps (init [] 1000)
      [Step.event (Event.send [("cmd", JVal.str "ping")] 0), Step.event (Event.tick 15000),
        Step.event (Event.fire 0), Step.setClock 1000,
        Step.event (Event.send [("cmd", JVal.str "b")] 0)]).submissions[0]? =
        some ⟨"1000", [Settle.reject "Timeout: no response from client"]⟩ ∧
    (report (runSteps (init [] 1000)
      [Step.event (Event.send [("cmd", JVal.str "ping")] 0), Step.event (Event.tick 15000),
        Step.event (Event.fire 0), Step.setClock 1000,
        Step.event (Event.send [("cmd", JVal.str "b")] 0)])
      [("id", JVal.str "1000"), ("result", JVal.str "late")]).2.status = 200 ∧
    mapKeys (runSteps (init [] 1000)
      [Step.event (Event.send [("cmd", JVal.str "ping")] 0), Step.event (Event.tick 15000),
        Step.event (Event.fire 0), Step.setClock 1000,
        Step.event (Event.send [("cmd", JVal.str "b")] 0)]).pendingCommands = ["1000"] ∧
    mapKeys (report (runSteps (init [] 1000)
      [Step.event (Event.send [("cmd", JVal.str "ping")] 0), Step.event (Event.tick 15000),
        Step.event (Event.fire 0), Step.setClock 1000,
        Step.event (Event.send [("cmd", JVal.str "b")] 0)])
      [("id", JVal.str "1000"), ("result", JVal.str "late")]).1.pendingCommands = [] :=
  ⟨reachableAnyClock_runSteps (ReachableAnyClock.init [] 1000) _,
    by decide, by decide, by decide, by decide⟩

end Server
